import Mathlib

/-!
Verification model of `ProcessTrace.cpp` (repository tristan-gy/ProgrammingAssignment3).

The repository source contains only `ProcessTrace.cpp`; the memory subsystem it
drives (`mem::MMU`, `mem::PMCB`, `mem::PageFrameAllocator`, the `kPageSize` /
page-table-entry constants declared in the missing headers) is modelled here from
the specification, sections 3, 4.1 and 4.2 (two-level page-table walk, byte
accesses with partial-progress fault reporting, an allocator handing out distinct
page-aligned frame addresses over zero-initialized storage).

Modelling conventions:
  * machine integers are `Nat`; the C masks and shifts on `uint32_t` are written
    with `/`, `%` and `*` (for `x` below `2 ^ 32`, `x >> 22` is `x / 4194304`,
    `x & 0xFFF` is `x % 4096`, `x & 0xFFFFF000` is `x / 4096 * 4096`);
    address arithmetic is not wrapped at `2 ^ 32`, and the theorems that need it
    carry explicit no-overflow bounds;
  * physical memory is a function `Nat → Nat`; a byte read masks with `% 256`
    (the store is an array of `uint8_t`);
  * C++ exceptions become explicit result constructors (`MemOp.pageFault`,
    `MemOp.permFault`, `Out.crash`), and the unbounded `while` loops of
    `CmdPut` / `CmdFill` / `CmdCopy` take a fuel argument (`none` = fuel ran out);
  * everything printed by the program is modelled as a `List Event`.
-/

namespace PT

/-- Physical memory: byte value at each physical address. -/
abbrev Mem := Nat → Nat

/-- Read one byte; the backing store holds `uint8_t`, hence the mask. -/
def readB (m : Mem) (a : Nat) : Nat := m a % 256

/-- Write one byte. -/
def writeB (m : Mem) (a v : Nat) : Mem := fun x => if x = a then v else m x

/-- Read a 32-bit little-endian word, as `reinterpret_cast<uint8_t*>` of a
`PageTableEntry` does on the reference platform. -/
def readWord32 (m : Mem) (a : Nat) : Nat :=
  readB m a + 256 * readB m (a + 1) + 65536 * readB m (a + 2) +
    16777216 * readB m (a + 3)

/-- Write a 32-bit little-endian word. -/
def writeWord32 (m : Mem) (a v : Nat) : Mem :=
  writeB (writeB (writeB (writeB m a v) (a + 1) (v / 256)) (a + 2) (v / 65536))
    (a + 3) (v / 16777216)

/-- Operation tag held in a PMCB (`mem::PMCB::NONE / READ_OP / WRITE_OP`). -/
inductive OpState where
  | none
  | read
  | write
deriving DecidableEq

/-- Modelled from the spec: the AddressingContext (`mem::PMCB`): paging-enabled
flag, page-table root, operation tag and the progress marker `next_vaddress`
(the address one past the last successfully processed byte). -/
structure PMCB where
  vm_enabled : Bool
  page_table_base : Nat
  operation_state : OpState
  next_vaddress : Nat
deriving DecidableEq

/-- Index into the L1 (root) table: `vaddr >> (kPageSizeBits + kPageTableSizeBits)`,
i.e. `vaddr >> 22` on a 32-bit address. -/
def l1IndexOf (v : Nat) : Nat := v / 4194304

/-- Index into the L2 table: `(vaddr >> kPageSizeBits) & kPageTableIndexMask`. -/
def l2IndexOf (v : Nat) : Nat := v / 4096 % 1024

/-- `x & kPageNumberMask` (= `0xFFFFF000`) for a 32-bit `x`: clear the page-offset
bits. -/
def pageBaseOf (v : Nat) : Nat := v / 4096 * 4096

/-- Modelled from the spec: the two-level page-table walk of the MMU (§4.2).
Returns `none` when the page is unmapped at either level, otherwise the physical
address of the byte together with the entry's writable bit.  A page-table entry
has the present bit at bit 0, the writable bit at bit 1, the frame address in
the high bits. -/
def trw (m : Mem) (root v : Nat) : Option (Nat × Bool) :=
  let e1 := readWord32 m (root + 4 * l1IndexOf v)
  if e1 % 2 = 0 then none
  else
    let e2 := readWord32 m (pageBaseOf e1 + 4 * l2IndexOf v)
    if e2 % 2 = 0 then none
    else some (pageBaseOf e2 + v % 4096, e2 / 2 % 2 == 1)

/-- Result of an MMU write operation (`mem::MMU::put_bytes` / `put_byte`): the
possibly partially updated memory and the MMU's internal PMCB afterwards.  The
two C++ exception classes become the two fault constructors, with
`next_vaddress` recording the faulting address (partial-progress contract,
spec §4.2). -/
inductive MemOp where
  | ok (m : Mem) (pm : PMCB)
  | pageFault (m : Mem) (pm : PMCB)
  | permFault (m : Mem) (pm : PMCB)

/-- Modelled from the spec: `mem::MMU::put_bytes`, byte by byte.  In virtual mode
each byte is translated; an unmapped page raises PageFault and a mapped
read-only page raises WritePermissionFault, in both cases with the faulting
address in the progress marker and all earlier bytes already written.
Physical mode writes directly. -/
def putBytes (m : Mem) (pm : PMCB) (a : Nat) : List Nat → MemOp
  | [] => .ok m { pm with next_vaddress := a, operation_state := .write }
  | b :: bs =>
    if pm.vm_enabled then
      match trw m pm.page_table_base a with
      | Option.none => .pageFault m { pm with next_vaddress := a, operation_state := .write }
      | some (p, w) =>
        if w then putBytes (writeB m p b) pm (a + 1) bs
        else .permFault m { pm with next_vaddress := a, operation_state := .write }
    else putBytes (writeB m a b) pm (a + 1) bs

/-- Result of an MMU read operation (`mem::MMU::get_bytes` / `get_byte`): the
bytes successfully read (all of them on success, the mapped prefix on a fault)
and the MMU's PMCB afterwards. -/
inductive GetOp where
  | ok (bs : List Nat) (pm : PMCB)
  | pageFault (bs : List Nat) (pm : PMCB)

/-- Modelled from the spec: `mem::MMU::get_bytes`, byte by byte; reads do not
check the writable bit and can only raise PageFault. -/
def getBytes (m : Mem) (pm : PMCB) (a : Nat) : Nat → GetOp
  | 0 => .ok [] { pm with next_vaddress := a, operation_state := .read }
  | n + 1 =>
    if pm.vm_enabled then
      match trw m pm.page_table_base a with
      | Option.none => .pageFault [] { pm with next_vaddress := a, operation_state := .read }
      | some (p, _) =>
        match getBytes m pm (a + 1) n with
        | .ok bs pm' => .ok (readB m p :: bs) pm'
        | .pageFault bs pm' => .pageFault (readB m p :: bs) pm'
    else
      match getBytes m pm (a + 1) n with
      | .ok bs pm' => .ok (readB m a :: bs) pm'
      | .pageFault bs pm' => .pageFault (readB m a :: bs) pm'

/-- Exception kinds reported by `PrintAndClearException`. -/
inductive ExKind where
  | pageFault
  | pageFaultOnRead
  | writePermFault
deriving DecidableEq

/-- Observable output events of the trace executor:
`exn` = a `PrintAndClearException` report, `cmpErr` = a compare-mismatch line,
`attempt start len` = one `put_bytes` / `put_byte`-run issued by a
put/fill/copy retry loop (instrumentation of the access the loop issues),
`alloc` = one `AllocateAndMapPage` call, `quotaMsg` = the
"ERROR: memory quota exceeded" line printed by `Execute`. -/
inductive Event where
  | exn (k : ExKind) (vaddr : Nat)
  | cmpErr (addr expected actual : Nat)
  | attempt (start len : Nat)
  | alloc
  | quotaMsg
deriving DecidableEq

/-- Ways the program dies with the whole process (uncaught exception / exit(2)). -/
inductive Crash where
  | argOOR      -- std::out_of_range from cmdArgs.at(i) on a missing argument
  | dupAlloc    -- std::bad_alloc thrown by AllocateAndMapPage on a duplicate mapping
  | invalidCmd  -- exit(2) on an unknown non-comment command
deriving DecidableEq

/-- State of one `ProcessTrace` object together with the MMU it drives:
the physical memory and allocator (next never-handed-out frame index) of the
memory subsystem, the PMCB currently installed in the MMU, and the fields of
`ProcessTrace` (`vmem_pmcb`, `pmem_pmcb`, `allocated_pages`, `QUOTA`). -/
structure St where
  mem : Mem
  nextFrame : Nat
  mmu_pmcb : PMCB
  vmem_pmcb : PMCB
  pmem_pmcb : PMCB
  allocated_pages : Nat
  QUOTA : Nat

/-- Modelled from the spec: `PageFrameAllocator::Allocate(1, allocated)` hands out
the next never-before-returned page-aligned frame address (§4.1). -/
def allocateFrame (s : St) : Nat × St :=
  (4096 * s.nextFrame, { s with nextFrame := s.nextFrame + 1 })

/-- `ProcessTrace::AllocateAndMapPage` (lines 383-424): read the L1 entry for
`vaddr` from the root table; if absent, allocate a frame and install it as a
present+writable L1 entry; then read the L2 entry; if it is already present,
throw `std::bad_alloc` (`none` here); otherwise allocate a frame and install it
as a present+writable L2 entry.  `frame | kPTE_PresentMask | kPTE_WritableMask`
is `frame + 3` since frames are page-aligned.  The MMU is in physical mode
here, so `get_bytes`/`put_bytes` are direct word accesses. -/
def allocateAndMapPage (s : St) (vaddr : Nat) : Option St :=
  let pt_base := s.vmem_pmcb.page_table_base
  let l1_addr := pt_base + 4 * l1IndexOf vaddr
  let l1e := readWord32 s.mem l1_addr
  let step1 : Nat × St :=
    if l1e % 2 = 0 then
      let fs := allocateFrame s
      (fs.1 + 3, { fs.2 with mem := writeWord32 fs.2.mem l1_addr (fs.1 + 3) })
    else (l1e, s)
  let l2_addr := pageBaseOf step1.1 + 4 * l2IndexOf vaddr
  let l2e := readWord32 step1.2.mem l2_addr
  if l2e % 2 = 1 then none
  else
    let fs := allocateFrame step1.2
    some { fs.2 with mem := writeWord32 fs.2.mem l2_addr (fs.1 + 3) }

/-- `ProcessTrace::SetWritableStatus` (lines 426-459): walk to the L2 entry of
`vaddr`; if either level is absent, do nothing; otherwise rewrite the entry with
its writable bit replaced by `w`.  `(e & ~kPTE_WritableMask) | (w ? mask : 0)`
is `e - 2 * (e / 2 % 2) + (if w then 2 else 0)`. -/
def setWritableStatus (m : Mem) (root vaddr : Nat) (w : Bool) : Mem :=
  let l1e := readWord32 m (root + 4 * l1IndexOf vaddr)
  if l1e % 2 = 0 then m
  else
    let l2_addr := pageBaseOf l1e + 4 * l2IndexOf vaddr
    let l2e := readWord32 m l2_addr
    if l2e % 2 = 0 then m
    else writeWord32 m l2_addr (l2e - 2 * (l2e / 2 % 2) + (if w then 2 else 0))

/-- Outcome of one trace command: normal return (`CmdPut` etc. returning true),
quota failure (returning false), or program termination. -/
inductive Out where
  | ok (s : St) (ev : List Event)
  | quotaFail (s : St) (ev : List Event)
  | crash (c : Crash)

/-- The retry loop shared by `CmdPut` (lines 183-210) and the write phase of
`CmdCopy` (lines 238-266): clear the operation tag of `vmem_pmcb`, install it
in the MMU, and issue `put_bytes(addr, num_bytes, buffer)` — the full request
from its original start on every iteration.  On a PageFault the PMCB is copied
back, `bytes_written = next_vaddress - addr` is compared with the request
length; if short, either fail on `allocated_pages == QUOTA` or switch to
physical mode, `AllocateAndMapPage(next_vaddress & kPageNumberMask)`,
`++allocated_pages`, and iterate.  On a WritePermissionFault the exception is
printed and cleared and the command completes.  Every exit that completes runs
`memory.set_PMCB(vmem_pmcb)` (line 212); the quota-failure `return false`
(line 196) does not.  `none` = fuel exhausted (the C loop is unbounded). -/
def putLoop (addr : Nat) (bs : List Nat) : Nat → St → List Event → Option Out
  | 0, _, _ => none
  | fuel + 1, s, ev =>
    let vp := { s.vmem_pmcb with operation_state := OpState.none }
    let s1 := { s with vmem_pmcb := vp, mmu_pmcb := vp }
    let ev1 := ev ++ [.attempt addr bs.length]
    match putBytes s1.mem vp addr bs with
    | .ok m2 _ =>
      some (.ok { s1 with mem := m2, mmu_pmcb := vp } ev1)
    | .pageFault m2 pm2 =>
      let s2 := { s1 with mem := m2, vmem_pmcb := pm2, mmu_pmcb := pm2 }
      if pm2.next_vaddress - addr = bs.length then
        some (.ok { s2 with mmu_pmcb := s2.vmem_pmcb } ev1)
      else if s2.allocated_pages = s2.QUOTA then
        some (.quotaFail s2 ev1)
      else
        let s3 := { s2 with mmu_pmcb := s2.pmem_pmcb }
        match allocateAndMapPage s3 (pageBaseOf pm2.next_vaddress) with
        | Option.none => some (.crash .dupAlloc)
        | some s4 =>
          putLoop addr bs fuel { s4 with allocated_pages := s4.allocated_pages + 1 }
            (ev1 ++ [.alloc])
    | .permFault m2 pm2 =>
      let vp2 := { pm2 with operation_state := OpState.none }
      let s2 := { s1 with mem := m2, vmem_pmcb := vp2, mmu_pmcb := vp2 }
      some (.ok { s2 with mmu_pmcb := s2.vmem_pmcb }
        (ev1 ++ [.exn .writePermFault pm2.next_vaddress]))

/-- `ProcessTrace::CmdPut` (lines 170-214): `addr = cmdArgs.at(0)` (throws on a
missing argument), the remaining arguments truncated to bytes, then the retry
loop. -/
def cmdPut (fuel : Nat) (s : St) (args : List Nat) : Option Out :=
  match args with
  | [] => some (.crash .argOOR)
  | addr :: rest => putLoop addr (rest.map (fun b => b % 256)) fuel s []

/-- The inner `for` of `CmdFill` (lines 287-292): `k` remaining `put_byte`
calls starting at `a`, each advancing the MMU progress marker. -/
def fillInner (m : Mem) (pm : PMCB) (a val : Nat) : Nat → MemOp
  | 0 => .ok m pm
  | k + 1 =>
    if pm.vm_enabled then
      match trw m pm.page_table_base a with
      | Option.none => .pageFault m { pm with next_vaddress := a, operation_state := .write }
      | some (p, w) =>
        if w then
          fillInner (writeB m p val)
            { pm with next_vaddress := a + 1, operation_state := .write } (a + 1) val k
        else .permFault m { pm with next_vaddress := a, operation_state := .write }
    else
      fillInner (writeB m a val)
        { pm with next_vaddress := a + 1, operation_state := .write } (a + 1) val k

/-- The retry loop of `CmdFill` (lines 281-313).  Unlike `putLoop`, the local
`addr` cursor keeps its value across a fault (it stopped at the faulting byte,
which equals the progress marker `next_vaddress`), and the next attempt resumes
there with the remaining `num - bytes_written` bytes. -/
def fillLoop (start num val : Nat) : Nat → Nat → Nat → St → List Event → Option Out
  | 0, _, _, _, _ => none
  | fuel + 1, addr, bw, s, ev =>
    let vp := { s.vmem_pmcb with operation_state := OpState.none }
    let s1 := { s with vmem_pmcb := vp, mmu_pmcb := vp }
    let ev1 := ev ++ [.attempt addr (num - bw)]
    match fillInner s1.mem vp addr val (num - bw) with
    | .ok m2 _ =>
      some (.ok { s1 with mem := m2, mmu_pmcb := vp } ev1)
    | .pageFault m2 pm2 =>
      let s2 := { s1 with mem := m2, vmem_pmcb := pm2, mmu_pmcb := pm2 }
      if pm2.next_vaddress - start = num then
        some (.ok { s2 with mmu_pmcb := s2.vmem_pmcb } ev1)
      else if s2.allocated_pages = s2.QUOTA then
        some (.quotaFail s2 ev1)
      else
        let s3 := { s2 with mmu_pmcb := s2.pmem_pmcb }
        match allocateAndMapPage s3 (pageBaseOf pm2.next_vaddress) with
        | Option.none => some (.crash .dupAlloc)
        | some s4 =>
          fillLoop start num val fuel pm2.next_vaddress (pm2.next_vaddress - start)
            { s4 with allocated_pages := s4.allocated_pages + 1 } (ev1 ++ [.alloc])
    | .permFault m2 pm2 =>
      let vp2 := { pm2 with operation_state := OpState.none }
      let s2 := { s1 with mem := m2, vmem_pmcb := vp2, mmu_pmcb := vp2 }
      some (.ok { s2 with mmu_pmcb := s2.vmem_pmcb }
        (ev1 ++ [.exn .writePermFault pm2.next_vaddress]))

/-- `ProcessTrace::CmdFill` (lines 272-317): `addr`, `num_bytes`, `val` from
`cmdArgs.at(0..2)` (missing arguments throw), `val` truncated to a byte. -/
def cmdFill (fuel : Nat) (s : St) (args : List Nat) : Option Out :=
  match args with
  | a :: n :: v :: _ => fillLoop a n (v % 256) fuel a 0 s []
  | _ => some (.crash .argOOR)

/-- `ProcessTrace::CmdCopy` (lines 216-270): read `num_bytes` from `src` with
the MMU's current context (a read fault is printed and cleared, truncating to
`bytes_read = next_vaddress - src`), then write the read bytes to `dst` through
the same retry loop as `CmdPut`. -/
def cmdCopy (fuel : Nat) (s : St) (args : List Nat) : Option Out :=
  match args with
  | dst :: src :: n :: _ =>
    match getBytes s.mem s.mmu_pmcb src n with
    | .ok buf pm' =>
      let s1 := { s with mmu_pmcb := pm', vmem_pmcb := pm' }
      putLoop dst (buf.take (pm'.next_vaddress - src)) fuel s1 []
    | .pageFault buf pm' =>
      let vp2 := { pm' with operation_state := OpState.none }
      let s1 := { s with vmem_pmcb := vp2, mmu_pmcb := vp2 }
      putLoop dst (buf.take (vp2.next_vaddress - src)) fuel s1
        [.exn .pageFaultOnRead pm'.next_vaddress]
  | _ => some (.crash .argOOR)

/-- Mismatch report lines of the compare loop (lines 157-164): each successfully
read byte differing from its expected value yields one line; the loop never
aborts.  The expected value is compared (and printed) as the raw 32-bit
argument, the actual value as the byte read. -/
def cmpEvents (addr : Nat) : List Nat → List Nat → List Event
  | b :: bs, e :: es =>
    (if b ≠ e then [.cmpErr addr e b] else []) ++ cmpEvents (addr + 1) bs es
  | _, _ => []

/-- `ProcessTrace::CmdCompare` (lines 147-168): read `cmdArgs.size() - 1` bytes
at `cmdArgs.at(0)`; the compare loop sits inside the `try`, so a PageFault
skips it entirely and only prints the exception. -/
def cmdCompare (s : St) (args : List Nat) : Out :=
  match args with
  | [] => .crash .argOOR
  | addr :: expected =>
    match getBytes s.mem s.mmu_pmcb addr expected.length with
    | .ok buf pm' => .ok { s with mmu_pmcb := pm' } (cmpEvents addr buf expected)
    | .pageFault _ pm' =>
      let vp := { pm' with operation_state := OpState.none }
      .ok { s with vmem_pmcb := vp, mmu_pmcb := vp } [.exn .pageFault pm'.next_vaddress]

/-- `ProcessTrace::CmdDump` (lines 319-344): read `count` bytes at `addr`
byte-by-byte; a PageFault is printed and cleared.  The hex rows it prints are
not modelled (only the exception report is an `Event`). -/
def cmdDump (s : St) (args : List Nat) : Out :=
  match args with
  | a :: n :: _ =>
    match getBytes s.mem s.mmu_pmcb a n with
    | .ok _ pm' => .ok { s with mmu_pmcb := pm' } []
    | .pageFault _ pm' =>
      let vp := { pm' with operation_state := OpState.none }
      .ok { s with vmem_pmcb := vp, mmu_pmcb := vp } [.exn .pageFault pm'.next_vaddress]
  | _ => .crash .argOOR

/-- The page loop of `CmdWritable` (lines 361-364): `count` calls to
`SetWritableStatus`, stepping the virtual address by `0x1000`. -/
def setWritableLoop (m : Mem) (root a : Nat) (w : Bool) : Nat → Mem
  | 0 => m
  | k + 1 => setWritableLoop (setWritableStatus m root a w) root (a + 4096) w k

/-- `ProcessTrace::CmdWritable` (lines 346-368): `count = cmdArgs.at(1) / kPageSize`
pages starting at `cmdArgs.at(0)`; the current MMU context is saved into
`vmem_pmcb`, the MMU switched to physical mode, the entries rewritten, and the
saved context restored. -/
def cmdWritable (s : St) (args : List Nat) : Out :=
  match args with
  | a :: cnt :: flag :: _ =>
    let vp := s.mmu_pmcb
    let s1 := { s with vmem_pmcb := vp, mmu_pmcb := s.pmem_pmcb }
    let m2 := setWritableLoop s1.mem vp.page_table_base a (flag ≠ 0) (cnt / 4096)
    .ok { s1 with mem := m2, mmu_pmcb := vp } []
  | _ => .crash .argOOR

/-- `ProcessTrace::CmdQuota` (lines 141-145): `QUOTA = cmdArgs.at(0)`. -/
def cmdQuota (s : St) (args : List Nat) : Out :=
  match args with
  | n :: _ => .ok { s with QUOTA := n } []
  | [] => .crash .argOOR

/-- One parsed trace line: the command keyword and the hexadecimal arguments the
trace reader extracted (a comment or blank parse has an empty keyword). -/
abbrev Line := String × List Nat

/-- The command dispatch of `ProcessTrace::Execute` (lines 64-94): the `if`
chain on the keyword; an empty keyword (comment / blank parse) is skipped,
an unknown non-empty keyword is fatal (`exit(2)`). -/
def runLine (fuel : Nat) (s : St) (l : Line) : Option Out :=
  if l.1 = "quota" then some (cmdQuota s l.2)
  else if l.1 = "compare" then some (cmdCompare s l.2)
  else if l.1 = "put" then cmdPut fuel s l.2
  else if l.1 = "fill" then cmdFill fuel s l.2
  else if l.1 = "copy" then cmdCopy fuel s l.2
  else if l.1 = "dump" then some (cmdDump s l.2)
  else if l.1 = "writable" then some (cmdWritable s l.2)
  else if l.1 = "" then some (.ok s [])
  else some (.crash .invalidCmd)

/-- How a run of `ProcessTrace::Execute` ended: all lines processed normally
(`finished n` returns `n`), halted by a put/fill/copy quota failure after `n`
lines (returns `n`, having printed the quota message), program terminated, or
the model's fuel ran out inside a retry loop. -/
inductive ExecRes where
  | finished (n : Nat) (s : St) (ev : List Event)
  | quotaHalt (n : Nat) (s : St) (ev : List Event)
  | crashed (c : Crash) (ev : List Event)
  | fuelOut
  deriving Nonempty

/-- The command loop of `ProcessTrace::Execute` (lines 63-98) over a list of
already-parsed lines: one line per iteration; a quota failure from put/fill/copy
prints the quota-exceeded message and returns the number of lines executed
before the failing one. -/
def executeFrom (fuel : Nat) (s : St) : List Line → ExecRes
  | [] => .finished 0 s []
  | l :: rest =>
    match runLine fuel s l with
    | Option.none => .fuelOut
    | some (.ok s' ev) =>
      match executeFrom fuel s' rest with
      | .finished n s2 ev2 => .finished (n + 1) s2 (ev ++ ev2)
      | .quotaHalt n s2 ev2 => .quotaHalt (n + 1) s2 (ev ++ ev2)
      | .crashed c ev2 => .crashed c (ev ++ ev2)
      | .fuelOut => .fuelOut
    | some (.quotaFail s' ev) => .quotaHalt 0 s' (ev ++ [.quotaMsg])
    | some (.crash c) => .crashed c []

/-- `ProcessTrace::Execute` (line 60): the MMU is put back into the process's
virtual context before the command loop starts. -/
def execute (fuel : Nat) (s : St) (lines : List Line) : ExecRes :=
  executeFrom fuel { s with mmu_pmcb := s.vmem_pmcb } lines

/-- `ProcessTrace::ProcessTrace` (lines 30-47): a fresh process over the
zero-initialized memory subsystem: one frame is allocated for the page-table
root (without touching `allocated_pages`, which starts at 0) and a virtual-mode
PMCB rooted there is installed in the MMU.  `QUOTA` is modelled from the spec
as zero until a `quota` command sets it. -/
def initProcess : St :=
  let ppm : PMCB :=
    { vm_enabled := false, page_table_base := 0,
      operation_state := OpState.none, next_vaddress := 0 }
  let vpm : PMCB :=
    { vm_enabled := true, page_table_base := 0,
      operation_state := OpState.none, next_vaddress := 0 }
  { mem := fun _ => 0, nextFrame := 1, mmu_pmcb := vpm, vmem_pmcb := vpm,
    pmem_pmcb := ppm, allocated_pages := 0, QUOTA := 0 }

/-- Outcome of `ProcessTrace::ParseCommand` on one successfully read line
(lines 103-139): either the `std::out_of_range` thrown by `line.at(0)`, or the
parsed keyword and arguments. -/
inductive ParseRes where
  | oob
  | parsed (cmd : String) (args : List Nat)
deriving DecidableEq

/-- Whitespace as skipped by `istringstream` extraction. -/
def isWS (c : Char) : Bool :=
  c = ' ' ∨ c = '\t' ∨ c = '\n' ∨ c = '\x0d' ∨ c = '\x0b' ∨ c = '\x0c'

/-- Split a line into whitespace-separated tokens (`cur` is the token being
accumulated, in reverse). -/
def tokensAux (cur : List Char) : List Char → List (List Char)
  | [] => if cur = [] then [] else [cur.reverse]
  | c :: cs =>
    if isWS c then
      if cur = [] then tokensAux [] cs else cur.reverse :: tokensAux [] cs
    else tokensAux (c :: cur) cs

/-- All whitespace-separated tokens of a line. -/
def tokens (cs : List Char) : List (List Char) := tokensAux [] cs

/-- Value of a hexadecimal digit. -/
def hexDigit (c : Char) : Option Nat :=
  if '0' ≤ c ∧ c ≤ '9' then some (c.toNat - 48)
  else if 'a' ≤ c ∧ c ≤ 'f' then some (c.toNat - 87)
  else if 'A' ≤ c ∧ c ≤ 'F' then some (c.toNat - 55)
  else Option.none

/-- Value of a token of hexadecimal digits, `none` if any character is not a
hex digit (extraction with `std::hex` fails on it). -/
def hexVal (acc : Nat) : List Char → Option Nat
  | [] => some acc
  | c :: cs =>
    match hexDigit c with
    | some d => hexVal (16 * acc + d) cs
    | Option.none => Option.none

/-- The argument loop of `ParseCommand` (lines 126-129): extract hexadecimal
arguments until extraction fails. -/
def parseArgs : List (List Char) → List Nat
  | [] => []
  | t :: ts =>
    match t with
    | [] => []
    | c :: cs =>
      match hexVal 0 (c :: cs) with
      | some v => v % 4294967296 :: parseArgs ts
      | Option.none => []

/-- `ProcessTrace::ParseCommand` on one line of text (lines 110-131): on an
empty line `line.at(0)` (line 117) throws `std::out_of_range`; on a line whose
first character is `#` the keyword stays empty (comment, skipped by the
dispatch); otherwise the first token is the keyword and the following tokens
are parsed as hexadecimal arguments. -/
def parseLine (cs : List Char) : ParseRes :=
  match cs with
  | [] => .oob
  | c :: _ =>
    if c = '#' then .parsed "" []
    else
      match tokens cs with
      | [] => .parsed "" []
      | t :: ts => .parsed (String.mk t) (parseArgs ts)

/-! Projections used to state decidable facts about results that contain a
`St` (whose `Mem` component has no decidable equality). -/

/-- Events of a command outcome. -/
def Out.events : Out → List Event
  | .ok _ ev => ev
  | .quotaFail _ ev => ev
  | .crash _ => []

/-- Crash kind of a command outcome, if it crashed. -/
def Out.crashOf : Out → Option Crash
  | .crash c => some c
  | _ => Option.none

/-- Whether the outcome is the quota failure (`return false`). -/
def Out.isQuotaFail : Out → Bool
  | .quotaFail _ _ => true
  | _ => false

/-- `allocated_pages` of the resulting state, when the command returned. -/
def Out.pagesOf : Out → Option Nat
  | .ok s _ => some s.allocated_pages
  | .quotaFail s _ => some s.allocated_pages
  | .crash _ => Option.none

/-- `nextFrame` of the resulting state, when the command returned. -/
def Out.framesOf : Out → Option Nat
  | .ok s _ => some s.nextFrame
  | .quotaFail s _ => some s.nextFrame
  | .crash _ => Option.none

/-- The `vm_enabled` flag of the PMCB left installed in the MMU, when the
command returned control to the command loop. -/
def Out.vmOf : Out → Option Bool
  | .ok s _ => some s.mmu_pmcb.vm_enabled
  | .quotaFail s _ => some s.mmu_pmcb.vm_enabled
  | .crash _ => Option.none

/-- Events of an optional outcome (fuel exhaustion has none). -/
def oEvents : Option Out → List Event
  | some o => o.events
  | Option.none => []

/-- Crash kind of an optional outcome. -/
def oCrash : Option Out → Option Crash
  | some o => o.crashOf
  | Option.none => Option.none

/-- The `attempt` events of an event list: the accesses a retry loop issued. -/
def attemptsOf (ev : List Event) : List (Nat × Nat) :=
  ev.filterMap fun e =>
    match e with
    | .attempt a n => some (a, n)
    | _ => Option.none

/-- Number of `alloc` events: successful `AllocateAndMapPage` calls. -/
def countAlloc (ev : List Event) : Nat :=
  (ev.filter fun e => e = .alloc).length

/-- Number of compare-mismatch reports. -/
def countCmpErr (ev : List Event) : Nat :=
  (ev.filterMap fun e =>
    match e with
    | .cmpErr a x y => some (a, x, y)
    | _ => Option.none).length

/-- `allocated_pages` at the end of an `Execute` run. -/
def ExecRes.pagesOf : ExecRes → Option Nat
  | .finished _ s _ => some s.allocated_pages
  | .quotaHalt _ s _ => some s.allocated_pages
  | _ => Option.none

/-- `QUOTA` at the end of an `Execute` run. -/
def ExecRes.quotaOf : ExecRes → Option Nat
  | .finished _ s _ => some s.QUOTA
  | .quotaHalt _ s _ => some s.QUOTA
  | _ => Option.none

/-- The value `Execute` returned, when it returned. -/
def ExecRes.retOf : ExecRes → Option Nat
  | .finished n _ _ => some n
  | .quotaHalt n _ _ => some n
  | _ => Option.none

/-- Whether the run halted on a quota failure. -/
def ExecRes.isQuotaHalt : ExecRes → Bool
  | .quotaHalt _ _ _ => true
  | _ => false

/-- Events of an `Execute` run. -/
def ExecRes.events : ExecRes → List Event
  | .finished _ _ ev => ev
  | .quotaHalt _ _ ev => ev
  | .crashed _ ev => ev
  | .fuelOut => []

/-! Concrete states used by the counterexamples and witnesses.  `exSt1` is the
memory-subsystem state of a process whose page table (rooted at frame 0) maps
exactly virtual page 0, present and writable, to data frame `0x2000`, with the
L2 table in frame `0x1000`; three frames are handed out, one data page is
counted, the quota is 5. -/

/-- Virtual-mode PMCB rooted at physical address 0. -/
def vpm0 : PMCB :=
  { vm_enabled := true, page_table_base := 0,
    operation_state := OpState.none, next_vaddress := 0 }

/-- Physical-mode PMCB. -/
def ppm0 : PMCB :=
  { vm_enabled := false, page_table_base := 0,
    operation_state := OpState.none, next_vaddress := 0 }

/-- Memory with virtual page 0 mapped writable: L1 entry 0 points at the L2
table in frame `0x1000` (entry `0x1003`), whose entry 0 maps data frame
`0x2000` (entry `0x2003`). -/
def mem1 : Mem := writeWord32 (writeWord32 (fun _ => 0) 0 4099) 4096 8195

/-- Process state over `mem1`. -/
def exSt1 : St :=
  { mem := mem1, nextFrame := 3, mmu_pmcb := vpm0, vmem_pmcb := vpm0,
    pmem_pmcb := ppm0, allocated_pages := 1, QUOTA := 5 }

/-! Small projection helpers used by the proofs. -/

/-- PMCB component of an MMU write result. -/
def MemOp.pmOf : MemOp → PMCB
  | .ok _ pm => pm
  | .pageFault _ pm => pm
  | .permFault _ pm => pm

/-- PMCB component of an MMU read result. -/
def GetOp.pmOf : GetOp → PMCB
  | .ok _ pm => pm
  | .pageFault _ pm => pm

/-- The MMU-mode flag left installed by an optional command outcome
(`none` when the program died or the model ran out of fuel). -/
def oVm : Option Out → Option Bool
  | some o => o.vmOf
  | Option.none => Option.none

/-! Basic preservation lemmas for the modelled MMU operations. -/

theorem putBytes_pm (bs : List Nat) : ∀ (m : Mem) (pm : PMCB) (a : Nat),
    ((putBytes m pm a bs).pmOf).vm_enabled = pm.vm_enabled ∧
    ((putBytes m pm a bs).pmOf).page_table_base = pm.page_table_base := by
  induction bs with
  | nil => intro m pm a; simp [putBytes, MemOp.pmOf]
  | cons b bs ih =>
    intro m pm a
    simp only [putBytes]
    by_cases hv : pm.vm_enabled = true
    · rw [if_pos hv]
      cases htr : trw m pm.page_table_base a with
      | none => simp [MemOp.pmOf]
      | some pw =>
        obtain ⟨p, w⟩ := pw
        cases w with
        | false => simp [MemOp.pmOf]
        | true => simpa using ih (writeB m p b) pm (a + 1)
    · rw [if_neg hv]
      exact ih (writeB m a b) pm (a + 1)

theorem fillInner_pm (k : Nat) : ∀ (m : Mem) (pm : PMCB) (a val : Nat),
    ((fillInner m pm a val k).pmOf).vm_enabled = pm.vm_enabled ∧
    ((fillInner m pm a val k).pmOf).page_table_base = pm.page_table_base := by
  induction k with
  | zero => intro m pm a val; simp [fillInner, MemOp.pmOf]
  | succ k ih =>
    intro m pm a val
    simp only [fillInner]
    by_cases hv : pm.vm_enabled = true
    · rw [if_pos hv]
      cases htr : trw m pm.page_table_base a with
      | none => simp [MemOp.pmOf]
      | some pw =>
        obtain ⟨p, w⟩ := pw
        cases w with
        | false => simp [MemOp.pmOf]
        | true => simpa using ih (writeB m p val) _ (a + 1) val
    · rw [if_neg hv]
      simpa using ih (writeB m a val) _ (a + 1) val

theorem getBytes_pm (n : Nat) : ∀ (m : Mem) (pm : PMCB) (a : Nat),
    ((getBytes m pm a n).pmOf).vm_enabled = pm.vm_enabled ∧
    ((getBytes m pm a n).pmOf).page_table_base = pm.page_table_base := by
  induction n with
  | zero => intro m pm a; simp [getBytes, GetOp.pmOf]
  | succ n ih =>
    intro m pm a
    simp only [getBytes]
    by_cases hv : pm.vm_enabled = true
    · rw [if_pos hv]
      cases htr : trw m pm.page_table_base a with
      | none => simp [GetOp.pmOf]
      | some pw =>
        obtain ⟨p, w⟩ := pw
        cases hrec : getBytes m pm (a + 1) n with
        | ok bs pm' =>
          have := ih m pm (a + 1); rw [hrec] at this
          simpa [GetOp.pmOf] using this
        | pageFault bs pm' =>
          have := ih m pm (a + 1); rw [hrec] at this
          simpa [GetOp.pmOf] using this
    · rw [if_neg hv]
      cases hrec : getBytes m pm (a + 1) n with
      | ok bs pm' =>
        have := ih m pm (a + 1); rw [hrec] at this
        simpa [GetOp.pmOf] using this
      | pageFault bs pm' =>
        have := ih m pm (a + 1); rw [hrec] at this
        simpa [GetOp.pmOf] using this

/-- `AllocateAndMapPage` changes only the memory and the allocator, consuming
one frame (L1 entry already present) or two (fresh L2 table plus data page);
it never touches any PMCB, the page counter or the quota. -/
theorem allocMap_fields (s : St) (v : Nat) (s' : St)
    (h : allocateAndMapPage s v = some s') :
    s'.mmu_pmcb = s.mmu_pmcb ∧ s'.vmem_pmcb = s.vmem_pmcb ∧
    s'.pmem_pmcb = s.pmem_pmcb ∧ s'.allocated_pages = s.allocated_pages ∧
    s'.QUOTA = s.QUOTA ∧
    (s'.nextFrame = s.nextFrame + 1 ∨ s'.nextFrame = s.nextFrame + 2) := by
  simp only [allocateAndMapPage, allocateFrame] at h
  split at h
  · split at h
    · exact absurd h (by simp)
    · cases h
      refine ⟨rfl, rfl, rfl, rfl, rfl, Or.inr rfl⟩
  · split at h
    · exact absurd h (by simp)
    · cases h
      refine ⟨rfl, rfl, rfl, rfl, rfl, Or.inl rfl⟩

/-- Every exit of the put/copy retry loop that returns to the command loop
leaves a virtual-mode PMCB installed in the MMU. -/
theorem putLoop_vm (addr : Nat) (bs : List Nat) :
    ∀ (fuel : Nat) (s : St) (ev : List Event), s.vmem_pmcb.vm_enabled = true →
      oVm (putLoop addr bs fuel s ev) ≠ some false := by
  intro fuel
  induction fuel with
  | zero => intro s ev _; simp [putLoop, oVm]
  | succ f ih =>
    intro s ev hvm
    simp only [putLoop]
    split
    · -- put_bytes succeeded
      simp [oVm, Out.vmOf, hvm]
    · -- PageFault
      rename_i m2 pm2 heq
      have hpm : pm2.vm_enabled = true := by
        have h := (putBytes_pm bs s.mem
          { s.vmem_pmcb with operation_state := OpState.none } addr).1
        rw [heq] at h
        simpa [MemOp.pmOf, hvm] using h
      split
      · simp [oVm, Out.vmOf, hpm]
      · split
        · simp [oVm, Out.vmOf, hpm]
        · split
          · simp [oVm, Out.vmOf]
          · rename_i s4 halloc
            have hf := allocMap_fields _ _ _ halloc
            exact ih _ _ (by simp [hf.2.1, hpm])
    · -- WritePermissionFault
      rename_i m2 pm2 heq
      have hpm : pm2.vm_enabled = true := by
        have h := (putBytes_pm bs s.mem
          { s.vmem_pmcb with operation_state := OpState.none } addr).1
        rw [heq] at h
        simpa [MemOp.pmOf, hvm] using h
      simp [oVm, Out.vmOf, hpm]

/-- Every exit of the fill retry loop that returns to the command loop leaves a
virtual-mode PMCB installed in the MMU. -/
theorem fillLoop_vm (start num val : Nat) :
    ∀ (fuel addr bw : Nat) (s : St) (ev : List Event), s.vmem_pmcb.vm_enabled = true →
      oVm (fillLoop start num val fuel addr bw s ev) ≠ some false := by
  intro fuel
  induction fuel with
  | zero => intro addr bw s ev _; simp [fillLoop, oVm]
  | succ f ih =>
    intro addr bw s ev hvm
    simp only [fillLoop]
    split
    · simp [oVm, Out.vmOf, hvm]
    · rename_i m2 pm2 heq
      have hpm : pm2.vm_enabled = true := by
        have h := (fillInner_pm (num - bw) s.mem
          { s.vmem_pmcb with operation_state := OpState.none } addr val).1
        rw [heq] at h
        simpa [MemOp.pmOf, hvm] using h
      split
      · simp [oVm, Out.vmOf, hpm]
      · split
        · simp [oVm, Out.vmOf, hpm]
        · split
          · simp [oVm, Out.vmOf]
          · rename_i s4 halloc
            have hf := allocMap_fields _ _ _ halloc
            exact ih _ _ _ _ (by simp [hf.2.1, hpm])
    · rename_i m2 pm2 heq
      have hpm : pm2.vm_enabled = true := by
        have h := (fillInner_pm (num - bw) s.mem
          { s.vmem_pmcb with operation_state := OpState.none } addr val).1
        rw [heq] at h
        simpa [MemOp.pmOf, hvm] using h
      simp [oVm, Out.vmOf, hpm]

/-- C3: Every externally observable command (compare, put, fill, copy, dump,
writable — and also quota and a skipped line) that returns control to the
command loop leaves a virtual-mode (`vm_enabled = true`) context installed in
the MMU, on every exit path: completion, a write-permission fault, and a
quota-exceeded failure.  The hypotheses state that the command starts with the
process's virtual context active, as `Execute` guarantees (line 60) and every
command exit re-establishes. -/
theorem c3_virtual_mode_restored (fuel : Nat) (s : St) (l : Line)
    (h1 : s.mmu_pmcb.vm_enabled = true) (h2 : s.vmem_pmcb.vm_enabled = true) :
    oVm (runLine fuel s l) ≠ some false := by
  obtain ⟨c, args⟩ := l
  simp only [runLine]
  split
  · -- quota
    cases args with
    | nil => simp [cmdQuota, oVm, Out.vmOf]
    | cons n rest => simp [cmdQuota, oVm, Out.vmOf, h1]
  split
  · -- compare
    cases args with
    | nil => simp [cmdCompare, oVm, Out.vmOf]
    | cons addr expected =>
      simp only [cmdCompare]
      cases hg : getBytes s.mem s.mmu_pmcb addr expected.length with
      | ok buf pm' =>
        have h := (getBytes_pm expected.length s.mem s.mmu_pmcb addr).1
        rw [hg] at h
        simp only [GetOp.pmOf] at h
        rw [h1] at h
        simp [oVm, Out.vmOf, h]
      | pageFault buf pm' =>
        have h := (getBytes_pm expected.length s.mem s.mmu_pmcb addr).1
        rw [hg] at h
        simp only [GetOp.pmOf] at h
        rw [h1] at h
        simp [oVm, Out.vmOf, h]
  split
  · -- put
    cases args with
    | nil => simp [cmdPut, oVm, Out.vmOf]
    | cons addr rest => exact putLoop_vm _ _ _ _ _ h2
  split
  · -- fill
    match args with
    | [] => simp [cmdFill, oVm, Out.vmOf]
    | [a] => simp [cmdFill, oVm, Out.vmOf]
    | [a, n] => simp [cmdFill, oVm, Out.vmOf]
    | a :: n :: v :: rest => exact fillLoop_vm _ _ _ _ _ _ _ _ h2
  split
  · -- copy
    match args with
    | [] => simp [cmdCopy, oVm, Out.vmOf]
    | [d] => simp [cmdCopy, oVm, Out.vmOf]
    | [d, sr] => simp [cmdCopy, oVm, Out.vmOf]
    | d :: sr :: n :: rest =>
      simp only [cmdCopy]
      cases hg : getBytes s.mem s.mmu_pmcb sr n with
      | ok buf pm' =>
        have h := (getBytes_pm n s.mem s.mmu_pmcb sr).1
        rw [hg] at h
        simp only [GetOp.pmOf] at h
        rw [h1] at h
        exact putLoop_vm _ _ _ _ _ (by simp [h])
      | pageFault buf pm' =>
        have h := (getBytes_pm n s.mem s.mmu_pmcb sr).1
        rw [hg] at h
        simp only [GetOp.pmOf] at h
        rw [h1] at h
        exact putLoop_vm _ _ _ _ _ (by simp [h])
  split
  · -- dump
    match args with
    | [] => simp [cmdDump, oVm, Out.vmOf]
    | [a] => simp [cmdDump, oVm, Out.vmOf]
    | a :: n :: rest =>
      simp only [cmdDump]
      cases hg : getBytes s.mem s.mmu_pmcb a n with
      | ok buf pm' =>
        have h := (getBytes_pm n s.mem s.mmu_pmcb a).1
        rw [hg] at h
        simp only [GetOp.pmOf] at h
        rw [h1] at h
        simp [oVm, Out.vmOf, h]
      | pageFault buf pm' =>
        have h := (getBytes_pm n s.mem s.mmu_pmcb a).1
        rw [hg] at h
        simp only [GetOp.pmOf] at h
        rw [h1] at h
        simp [oVm, Out.vmOf, h]
  split
  · -- writable
    match args with
    | [] => simp [cmdWritable, oVm, Out.vmOf]
    | [a] => simp [cmdWritable, oVm, Out.vmOf]
    | [a, n] => simp [cmdWritable, oVm, Out.vmOf]
    | a :: n :: fl :: rest => simp [cmdWritable, oVm, Out.vmOf, h1]
  split
  · -- comment / blank parse
    simp [oVm, Out.vmOf, h1]
  · -- unknown command
    simp [oVm, Out.vmOf]

/-- Witness for C3 at a concrete input: a `put` that ends in a quota failure
(fresh process, `QUOTA` still 0) leaves the MMU in virtual mode. -/
theorem c3_virtual_mode_restored_witness :
    oVm (runLine 3 initProcess ("put", [0, 1])) ≠ some false :=
  c3_virtual_mode_restored 3 initProcess ("put", [0, 1]) rfl rfl

/-- C10: a known command keyword with too few hexadecimal arguments dies in
`cmdArgs.at(...)`: `quota` with no argument, `fill` with two, `dump` with one
all end in the `std::out_of_range` termination (`Crash.argOOR`), which is none
of the specified error paths (not the invalid-command `exit(2)`, not the
duplicate-mapping `bad_alloc`), and the trace run ends as `crashed` rather
than returning a count. -/
theorem c10_missing_args_out_of_range :
    oCrash (runLine 1 initProcess ("quota", [])) = some .argOOR ∧
    oCrash (runLine 1 initProcess ("fill", [4096, 2])) = some .argOOR ∧
    oCrash (runLine 1 initProcess ("dump", [4096])) = some .argOOR ∧
    (executeFrom 1 initProcess [("quota", [])]).retOf = Option.none ∧
    Crash.argOOR ≠ Crash.invalidCmd ∧ Crash.argOOR ≠ Crash.dupAlloc := by
  refine ⟨rfl, rfl, rfl, rfl, by decide, by decide⟩

/-- C8 (the code violates the claim): on a zero-length trace line the comment
test `line.at(0)` (line 117) throws `std::out_of_range` and the program dies,
instead of the line being skipped; a non-empty all-whitespace line and a
comment line are parsed to an empty keyword, which the dispatch skips without
any effect. -/
theorem c8_empty_line_out_of_range :
    parseLine [] = ParseRes.oob ∧
    parseLine [' '] = ParseRes.parsed "" [] ∧
    parseLine ['#', 'x'] = ParseRes.parsed "" [] ∧
    (∀ fuel s, runLine fuel s ("", []) = some (.ok s [])) :=
  ⟨rfl, by decide, by decide, fun _ _ => rfl⟩

theorem countAlloc_nil : countAlloc [] = 0 := rfl

theorem countAlloc_append (xs ys : List Event) :
    countAlloc (xs ++ ys) = countAlloc xs + countAlloc ys := by
  simp [countAlloc, List.filter_append]

theorem countAlloc_cons_attempt (a n : Nat) (ev : List Event) :
    countAlloc (Event.attempt a n :: ev) = countAlloc ev := by
  simp [countAlloc]

theorem countAlloc_cons_alloc (ev : List Event) :
    countAlloc (Event.alloc :: ev) = countAlloc ev + 1 := by
  simp [countAlloc, List.length_cons]

theorem countAlloc_cons_exn (k : ExKind) (v : Nat) (ev : List Event) :
    countAlloc (Event.exn k v :: ev) = countAlloc ev := by
  simp [countAlloc]

/-- Allocation/quota accounting of a loop result relative to the state and
event accumulator at loop entry: the page counter grows by exactly the number
of `alloc` events recorded, the quota is untouched, and `counter ≤ QUOTA` is
preserved. -/
def loopAccount (s : St) (ev : List Event) (r : Option Out) : Prop :=
  ∀ s' ev', (r = some (.ok s' ev') ∨ r = some (.quotaFail s' ev')) →
    s'.allocated_pages + countAlloc ev = s.allocated_pages + countAlloc ev' ∧
    s'.QUOTA = s.QUOTA ∧
    (s.allocated_pages ≤ s.QUOTA → s'.allocated_pages ≤ s'.QUOTA)

theorem loopAccount_ok (s : St) (ev : List Event) (t : St) (ev2 : List Event)
    (h1 : t.allocated_pages = s.allocated_pages) (h2 : t.QUOTA = s.QUOTA)
    (h3 : countAlloc ev2 = countAlloc ev) :
    loopAccount s ev (some (.ok t ev2)) := by
  intro s' ev' hr
  rcases hr with hr | hr
  · obtain ⟨h4, h5⟩ := Out.ok.inj (Option.some.inj hr)
    subst h4; subst h5
    exact ⟨by omega, h2, fun hs => by omega⟩
  · exact absurd (Option.some.inj hr) (by intro h; cases h)

theorem loopAccount_qf (s : St) (ev : List Event) (t : St) (ev2 : List Event)
    (h1 : t.allocated_pages = s.allocated_pages) (h2 : t.QUOTA = s.QUOTA)
    (h3 : countAlloc ev2 = countAlloc ev) :
    loopAccount s ev (some (.quotaFail t ev2)) := by
  intro s' ev' hr
  rcases hr with hr | hr
  · exact absurd (Option.some.inj hr) (by intro h; cases h)
  · obtain ⟨h4, h5⟩ := Out.quotaFail.inj (Option.some.inj hr)
    subst h4; subst h5
    exact ⟨by omega, h2, fun hs => by omega⟩

theorem loopAccount_crash (s : St) (ev : List Event) (c : Crash) :
    loopAccount s ev (some (.crash c)) := by
  intro s' ev' hr
  rcases hr with hr | hr <;> exact absurd (Option.some.inj hr) (by intro h; cases h)

theorem loopAccount_none (s : St) (ev : List Event) :
    loopAccount s ev Option.none := by
  intro s' ev' hr
  rcases hr with hr | hr <;> cases hr

theorem loopAccount_step (s s5 : St) (ev ev5 : List Event) (r : Option Out)
    (h : loopAccount s5 ev5 r)
    (hp : s5.allocated_pages + countAlloc ev = s.allocated_pages + countAlloc ev5)
    (hq : s5.QUOTA = s.QUOTA)
    (hle : s.allocated_pages ≤ s.QUOTA → s5.allocated_pages ≤ s5.QUOTA) :
    loopAccount s ev r := by
  intro s' ev' hr
  obtain ⟨e1, e2, e3⟩ := h s' ev' hr
  exact ⟨by omega, by rw [e2, hq], fun hs => e3 (hle hs)⟩

/-- Accounting for the put/copy retry loop: `allocated_pages` is incremented
exactly once per `AllocateAndMapPage` call, the quota is never written, and
`allocated_pages ≤ QUOTA` is preserved. -/
theorem putLoop_account (addr : Nat) (bs : List Nat) :
    ∀ (fuel : Nat) (s : St) (ev : List Event),
      loopAccount s ev (putLoop addr bs fuel s ev) := by
  intro fuel
  induction fuel with
  | zero => intro s ev; exact loopAccount_none s ev
  | succ f ih =>
    intro s ev
    simp only [putLoop]
    split
    · exact loopAccount_ok _ _ _ _ rfl rfl
        (by simp [countAlloc_append, countAlloc_cons_attempt, countAlloc_nil])
    · rename_i m2 pm2 heq
      split
      · exact loopAccount_ok _ _ _ _ rfl rfl
          (by simp [countAlloc_append, countAlloc_cons_attempt, countAlloc_nil])
      · split
        · exact loopAccount_qf _ _ _ _ rfl rfl
            (by simp [countAlloc_append, countAlloc_cons_attempt, countAlloc_nil])
        · rename_i hbw hne
          split
          · exact loopAccount_crash _ _ _
          · rename_i s4 halloc
            have hf := allocMap_fields _ _ _ halloc
            have h1 : s4.allocated_pages = s.allocated_pages := hf.2.2.2.1
            have h2 : s4.QUOTA = s.QUOTA := hf.2.2.2.2.1
            have hne2 : ¬ (s.allocated_pages = s.QUOTA) := hne
            refine loopAccount_step s _ ev _ _ (ih _ _) ?_ h2 ?_
            · have hc : countAlloc ((ev ++ [Event.attempt addr bs.length]) ++ [Event.alloc]) =
                  countAlloc ev + 1 := by
                simp [countAlloc_append, countAlloc_cons_attempt, countAlloc_cons_alloc,
                  countAlloc_nil]
              show s4.allocated_pages + 1 + countAlloc ev =
                s.allocated_pages + countAlloc ((ev ++ [Event.attempt addr bs.length]) ++ [Event.alloc])
              rw [h1, hc]; omega
            · intro hs
              show s4.allocated_pages + 1 ≤ s4.QUOTA
              rw [h1, h2]; omega
    · exact loopAccount_ok _ _ _ _ rfl rfl
        (by simp [countAlloc_append, countAlloc_cons_attempt, countAlloc_cons_exn, countAlloc_nil])

/-- Accounting for the fill retry loop, as for `putLoop_account`. -/
theorem fillLoop_account (start num val : Nat) :
    ∀ (fuel addr bw : Nat) (s : St) (ev : List Event),
      loopAccount s ev (fillLoop start num val fuel addr bw s ev) := by
  intro fuel
  induction fuel with
  | zero => intro addr bw s ev; exact loopAccount_none s ev
  | succ f ih =>
    intro addr bw s ev
    simp only [fillLoop]
    split
    · exact loopAccount_ok _ _ _ _ rfl rfl
        (by simp [countAlloc_append, countAlloc_cons_attempt, countAlloc_nil])
    · rename_i m2 pm2 heq
      split
      · exact loopAccount_ok _ _ _ _ rfl rfl
          (by simp [countAlloc_append, countAlloc_cons_attempt, countAlloc_nil])
      · split
        · exact loopAccount_qf _ _ _ _ rfl rfl
            (by simp [countAlloc_append, countAlloc_cons_attempt, countAlloc_nil])
        · rename_i hbw hne
          split
          · exact loopAccount_crash _ _ _
          · rename_i s4 halloc
            have hf := allocMap_fields _ _ _ halloc
            have h1 : s4.allocated_pages = s.allocated_pages := hf.2.2.2.1
            have h2 : s4.QUOTA = s.QUOTA := hf.2.2.2.2.1
            have hne2 : ¬ (s.allocated_pages = s.QUOTA) := hne
            refine loopAccount_step s _ ev _ _ (ih _ _ _ _) ?_ h2 ?_
            · have hc : countAlloc ((ev ++ [Event.attempt addr (num - bw)]) ++ [Event.alloc]) =
                  countAlloc ev + 1 := by
                simp [countAlloc_append, countAlloc_cons_attempt, countAlloc_cons_alloc,
                  countAlloc_nil]
              show s4.allocated_pages + 1 + countAlloc ev =
                s.allocated_pages + countAlloc ((ev ++ [Event.attempt addr (num - bw)]) ++ [Event.alloc])
              rw [h1, hc]; omega
            · intro hs
              show s4.allocated_pages + 1 ≤ s4.QUOTA
              rw [h1, h2]; omega
    · exact loopAccount_ok _ _ _ _ rfl rfl
        (by simp [countAlloc_append, countAlloc_cons_attempt, countAlloc_cons_exn, countAlloc_nil])

/-- Whether an optional command outcome is the quota failure. -/
def oQuotaFail : Option Out → Bool
  | some o => o.isQuotaFail
  | Option.none => false

/-- Once the page counter is strictly above `QUOTA`, the equality test
`allocated_pages == QUOTA` in the put/copy retry loop can never fire again, so
the loop never reports a quota failure (it allocates instead). -/
theorem putLoop_no_quotaFail (addr : Nat) (bs : List Nat) :
    ∀ (fuel : Nat) (s : St) (ev : List Event), s.QUOTA < s.allocated_pages →
      oQuotaFail (putLoop addr bs fuel s ev) = false := by
  intro fuel
  induction fuel with
  | zero => intro s ev _; rfl
  | succ f ih =>
    intro s ev hlt
    simp only [putLoop]
    split
    · rfl
    · rename_i m2 pm2 heq
      split
      · rfl
      · split
        · rename_i heqq
          have heq2 : s.allocated_pages = s.QUOTA := heqq
          omega
        · split
          · rfl
          · rename_i s4 halloc
            have hf := allocMap_fields _ _ _ halloc
            have h1 : s4.allocated_pages = s.allocated_pages := hf.2.2.2.1
            have h2 : s4.QUOTA = s.QUOTA := hf.2.2.2.2.1
            exact ih _ _ (by show s4.QUOTA < s4.allocated_pages + 1; omega)
    · rfl

/-- The fill retry loop, as for `putLoop_no_quotaFail`. -/
theorem fillLoop_no_quotaFail (start num val : Nat) :
    ∀ (fuel addr bw : Nat) (s : St) (ev : List Event), s.QUOTA < s.allocated_pages →
      oQuotaFail (fillLoop start num val fuel addr bw s ev) = false := by
  intro fuel
  induction fuel with
  | zero => intro addr bw s ev _; rfl
  | succ f ih =>
    intro addr bw s ev hlt
    simp only [fillLoop]
    split
    · rfl
    · rename_i m2 pm2 heq
      split
      · rfl
      · split
        · rename_i heqq
          have heq2 : s.allocated_pages = s.QUOTA := heqq
          omega
        · split
          · rfl
          · rename_i s4 halloc
            have hf := allocMap_fields _ _ _ halloc
            have h1 : s4.allocated_pages = s.allocated_pages := hf.2.2.2.1
            have h2 : s4.QUOTA = s.QUOTA := hf.2.2.2.2.1
            exact ih _ _ _ _ (by show s4.QUOTA < s4.allocated_pages + 1; omega)
    · rfl

/-- C2 counterexample: the claim fails on the code at concrete inputs.
(1) `ProcessTrace::ProcessTrace` allocates the page-table root frame (the
allocator has handed out one frame) but `allocated_pages` stays 0 — that
allocation does not increment the counter.  (2) `AllocateAndMapPage` on an
address whose L1 slot is empty consumes two frames (`exSt1` has 3 frames out;
afterwards 5) while its callers increment the counter once.  (3) Running
`quota 2; fill 0 1 7; fill 0x400000 1 7; quota 1` leaves
`AllocatedPageCount = 2 > QUOTA = 1`, so the counter does exceed the quota. -/
theorem c2_counterexample :
    initProcess.nextFrame = 1 ∧ initProcess.allocated_pages = 0 ∧
    (allocateAndMapPage exSt1 4194304).map St.nextFrame = some 5 ∧
    exSt1.nextFrame = 3 ∧
    (allocateAndMapPage exSt1 4194304).map St.allocated_pages = some 1 ∧
    (executeFrom 5 initProcess
        [("quota", [2]), ("fill", [0, 1, 7]), ("fill", [4194304, 1, 7]),
         ("quota", [1])]).pagesOf = some 2 ∧
    (executeFrom 5 initProcess
        [("quota", [2]), ("fill", [0, 1, 7]), ("fill", [4194304, 1, 7]),
         ("quota", [1])]).quotaOf = some 1 ∧ 1 < 2 := by
  refine ⟨rfl, rfl, by decide, rfl, by decide, by decide, by decide, by decide⟩

/-- C2 as amended: `AllocatedPageCount` counts exactly the fault-recovery
`AllocateAndMapPage` calls, one increment per call, even when a call consumes
two frames (a fresh L2 table plus the data page); the root-table frame
allocated at construction is not counted; the quota field is never written by
put/fill/copy; and `AllocatedPageCount ≤ QUOTA` is preserved by every put, fill
and copy — so the counter never exceeds the quota unless a later `quota`
command lowers the quota below it. -/
theorem c2_amended_allocation_accounting :
    (initProcess.nextFrame = 1 ∧ initProcess.allocated_pages = 0) ∧
    (∀ s v s', allocateAndMapPage s v = some s' →
      s'.allocated_pages = s.allocated_pages ∧
      (s'.nextFrame = s.nextFrame + 1 ∨ s'.nextFrame = s.nextFrame + 2)) ∧
    (∀ addr bs fuel s ev, loopAccount s ev (putLoop addr bs fuel s ev)) ∧
    (∀ start num val fuel addr bw s ev,
      loopAccount s ev (fillLoop start num val fuel addr bw s ev)) := by
  refine ⟨⟨rfl, rfl⟩, ?_, ?_, ?_⟩
  · intro s v s' h
    have hf := allocMap_fields _ _ _ h
    exact ⟨hf.2.2.2.1, hf.2.2.2.2.2⟩
  · intro addr bs fuel s ev
    exact putLoop_account addr bs fuel s ev
  · intro start num val fuel addr bw s ev
    exact fillLoop_account start num val fuel addr bw s ev

/-- C4 counterexample: the claim fails on the code at a concrete input.  After
`quota 2; fill 0 1 7; fill 0x400000 1 7; quota 1` the process has
`allocated_pages = 2 > QUOTA = 1`; the next `fill 0x800000 1 7` needs a new
page, yet it does not fail with quota-exceeded: the run finishes all 5 lines
(no quota halt) and the counter rises to 3, because the guard is the equality
`allocated_pages == QUOTA`, which a counter already above the quota never
satisfies. -/
theorem c4_counterexample :
    (executeFrom 5 initProcess
        [("quota", [2]), ("fill", [0, 1, 7]), ("fill", [4194304, 1, 7]),
         ("quota", [1]), ("fill", [8388608, 1, 7])]).retOf = some 5 ∧
    (executeFrom 5 initProcess
        [("quota", [2]), ("fill", [0, 1, 7]), ("fill", [4194304, 1, 7]),
         ("quota", [1]), ("fill", [8388608, 1, 7])]).isQuotaHalt = false ∧
    (executeFrom 5 initProcess
        [("quota", [2]), ("fill", [0, 1, 7]), ("fill", [4194304, 1, 7]),
         ("quota", [1]), ("fill", [8388608, 1, 7])]).pagesOf = some 3 ∧
    (executeFrom 5 initProcess
        [("quota", [2]), ("fill", [0, 1, 7]), ("fill", [4194304, 1, 7]),
         ("quota", [1]), ("fill", [8388608, 1, 7])]).quotaOf = some 1 := by
  refine ⟨by decide, by decide, by decide, by decide⟩

/-- C4 as amended: an allocation attempt fails exactly when the counter equals
`QUOTA` at the moment of the fault; once `QUOTA` has been set strictly below
`allocated_pages`, no put, fill or copy ever reports a quota failure again —
their allocations proceed and the counter keeps growing past the quota. -/
theorem c4_amended_quota_equality_only :
    (∀ fuel s args, s.QUOTA < s.allocated_pages →
      oQuotaFail (cmdPut fuel s args) = false) ∧
    (∀ fuel s args, s.QUOTA < s.allocated_pages →
      oQuotaFail (cmdFill fuel s args) = false) ∧
    (∀ fuel s args, s.QUOTA < s.allocated_pages →
      oQuotaFail (cmdCopy fuel s args) = false) := by
  refine ⟨?_, ?_, ?_⟩
  · intro fuel s args hlt
    match args with
    | [] => rfl
    | addr :: rest => exact putLoop_no_quotaFail _ _ fuel s [] hlt
  · intro fuel s args hlt
    match args with
    | [] => rfl
    | [a] => rfl
    | [a, n] => rfl
    | a :: n :: v :: rest => exact fillLoop_no_quotaFail _ _ _ fuel _ _ s [] hlt
  · intro fuel s args hlt
    match args with
    | [] => rfl
    | [d] => rfl
    | [d, sr] => rfl
    | d :: sr :: n :: rest =>
      simp only [cmdCopy]
      cases hg : getBytes s.mem s.mmu_pmcb sr n with
      | ok buf pm' => exact putLoop_no_quotaFail _ _ fuel _ _ hlt
      | pageFault buf pm' => exact putLoop_no_quotaFail _ _ fuel _ _ hlt

theorem attemptsOf_nil : attemptsOf [] = [] := rfl

theorem attemptsOf_append (xs ys : List Event) :
    attemptsOf (xs ++ ys) = attemptsOf xs ++ attemptsOf ys := by
  simp [attemptsOf, List.filterMap_append]

theorem attemptsOf_cons_attempt (a n : Nat) (ev : List Event) :
    attemptsOf (Event.attempt a n :: ev) = (a, n) :: attemptsOf ev := by
  simp [attemptsOf]

theorem attemptsOf_cons_alloc (ev : List Event) :
    attemptsOf (Event.alloc :: ev) = attemptsOf ev := by
  simp [attemptsOf]

theorem attemptsOf_cons_exn (k : ExKind) (v : Nat) (ev : List Event) :
    attemptsOf (Event.exn k v :: ev) = attemptsOf ev := by
  simp [attemptsOf]

/-- Every `put_bytes` access issued by the put/copy retry loop starts at the
operation's original starting address with the full original length: the loop
re-issues the whole request (line 189 / line 244), it does not resume from the
progress marker. -/
theorem putLoop_attempts (addr : Nat) (bs : List Nat) :
    ∀ (fuel : Nat) (s : St) (ev : List Event),
      (∀ a k, (a, k) ∈ attemptsOf ev → a = addr ∧ k = bs.length) →
      ∀ a k, (a, k) ∈ attemptsOf (oEvents (putLoop addr bs fuel s ev)) →
        a = addr ∧ k = bs.length := by
  intro fuel
  induction fuel with
  | zero =>
    intro s ev hev a k hmem
    simp [putLoop, oEvents, attemptsOf_nil] at hmem
  | succ f ih =>
    intro s ev hev a k hmem
    have hstep : ∀ a k,
        (a, k) ∈ attemptsOf (ev ++ [Event.attempt addr bs.length]) →
          a = addr ∧ k = bs.length := by
      intro a k hm
      rw [attemptsOf_append, attemptsOf_cons_attempt, attemptsOf_nil] at hm
      rcases List.mem_append.mp hm with hm | hm
      · exact hev a k hm
      · rcases List.mem_singleton.mp hm with h
        exact ⟨congrArg Prod.fst h, congrArg Prod.snd h⟩
    simp only [putLoop] at hmem
    revert hmem
    split
    · intro hmem
      exact hstep a k (by simpa [oEvents, Out.events] using hmem)
    · split
      · intro hmem
        exact hstep a k (by simpa [oEvents, Out.events] using hmem)
      · split
        · intro hmem
          exact hstep a k (by simpa [oEvents, Out.events] using hmem)
        · split
          · intro hmem
            simp [oEvents, Out.events, attemptsOf_nil] at hmem
          · intro hmem
            refine ih _ _ ?_ a k hmem
            intro a k hm
            rw [attemptsOf_append, attemptsOf_cons_alloc, attemptsOf_nil] at hm
            rcases List.mem_append.mp hm with hm | hm
            · exact hstep a k hm
            · cases hm
    · intro hmem
      refine hstep a k ?_
      simp only [oEvents, Out.events] at hmem
      rw [attemptsOf_append] at hmem
      rcases List.mem_append.mp hmem with hm | hm
      · exact hm
      · rw [attemptsOf_cons_exn, attemptsOf_nil] at hm
        cases hm

/-- On a PageFault the progress marker of the fill inner loop lies between the
attempt's starting address and its end. -/
theorem fillInner_nv_range (k : Nat) : ∀ (m : Mem) (pm : PMCB) (a val : Nat)
    (m2 : Mem) (pm2 : PMCB), fillInner m pm a val k = .pageFault m2 pm2 →
      a ≤ pm2.next_vaddress ∧ pm2.next_vaddress ≤ a + k := by
  induction k with
  | zero => intro m pm a val m2 pm2 h; cases h
  | succ k ih =>
    intro m pm a val m2 pm2 h
    rw [fillInner] at h
    revert h
    by_cases hv : pm.vm_enabled = true
    · rw [if_pos hv]
      cases htr : trw m pm.page_table_base a with
      | none =>
        intro h
        cases h
        simp only
        omega
      | some pw =>
        obtain ⟨p, w⟩ := pw
        cases w with
        | false => intro h; cases h
        | true =>
          intro h
          have := ih _ _ (a + 1) val _ _ (by simpa using h)
          omega
    · rw [if_neg hv]
      intro h
      have := ih _ _ (a + 1) val _ _ h
      omega

/-- Every access issued by the fill retry loop starts exactly at the first
unfilled byte: the original start plus the bytes already written. -/
theorem fillLoop_attempts (start num val : Nat) :
    ∀ (fuel addr bw : Nat) (s : St) (ev : List Event),
      addr = start + bw → bw ≤ num →
      (∀ a k, (a, k) ∈ attemptsOf ev → a = start + (num - k) ∧ k ≤ num) →
      ∀ a k, (a, k) ∈ attemptsOf (oEvents (fillLoop start num val fuel addr bw s ev)) →
        a = start + (num - k) ∧ k ≤ num := by
  intro fuel
  induction fuel with
  | zero =>
    intro addr bw s ev _ _ hev a k hmem
    simp [fillLoop, oEvents, attemptsOf_nil] at hmem
  | succ f ih =>
    intro addr bw s ev haddr hbw hev a k hmem
    have hstep : ∀ a k,
        (a, k) ∈ attemptsOf (ev ++ [Event.attempt addr (num - bw)]) →
          a = start + (num - k) ∧ k ≤ num := by
      intro a k hm
      rw [attemptsOf_append, attemptsOf_cons_attempt, attemptsOf_nil] at hm
      rcases List.mem_append.mp hm with hm | hm
      · exact hev a k hm
      · rcases List.mem_singleton.mp hm with h
        have h1 : a = addr := congrArg Prod.fst h
        have h2 : k = num - bw := congrArg Prod.snd h
        constructor
        · rw [h1, h2, haddr]; omega
        · rw [h2]; omega
    simp only [fillLoop] at hmem
    revert hmem
    split
    · intro hmem
      exact hstep a k (by simpa [oEvents, Out.events] using hmem)
    · rename_i m2 pm2 heq
      have hnv := fillInner_nv_range (num - bw) _ _ addr val _ _ heq
      split
      · intro hmem
        exact hstep a k (by simpa [oEvents, Out.events] using hmem)
      · split
        · intro hmem
          exact hstep a k (by simpa [oEvents, Out.events] using hmem)
        · split
          · intro hmem
            simp [oEvents, Out.events, attemptsOf_nil] at hmem
          · intro hmem
            refine ih _ _ _ _ (by omega) (by omega) ?_ a k hmem
            intro a k hm
            rw [attemptsOf_append, attemptsOf_cons_alloc, attemptsOf_nil] at hm
            rcases List.mem_append.mp hm with hm | hm
            · exact hstep a k hm
            · cases hm
    · intro hmem
      refine hstep a k ?_
      simp only [oEvents, Out.events] at hmem
      rw [attemptsOf_append] at hmem
      rcases List.mem_append.mp hmem with hm | hm
      · exact hm
      · rw [attemptsOf_cons_exn, attemptsOf_nil] at hm
        cases hm

/-- C1 counterexample: the claim fails on the code at a concrete input.  On
`exSt1` (page 0 mapped writable, page 1 unmapped), `put 0xFFF AA BB` first
writes the byte at `0xFFF` and faults at `0x1000` — the progress marker and
first unwritten byte.  After the fault-recovery allocation (one `alloc`
event), the retried access is issued at `0xFFF` with the full length 2 again:
at the operation's original starting address, not at the recorded marker
`0x1000`. -/
theorem c1_counterexample :
    attemptsOf (oEvents (cmdPut 5 exSt1 [4095, 170, 187])) = [(4095, 2), (4095, 2)] ∧
    countAlloc (oEvents (cmdPut 5 exSt1 [4095, 170, 187])) = 1 ∧
    trw mem1 0 4095 = some (12287, true) ∧
    trw mem1 0 4096 = Option.none ∧
    (4095 ≠ 4096) := by
  refine ⟨by decide, by decide, by decide, by decide, by decide⟩

/-- C1 as amended: only `fill` resumes from the first unwritten byte — each of
its retry attempts starts at `start + bytes_written` (the progress marker) and
writes the remaining `num - bytes_written` bytes.  `put` and `copy` instead
re-issue the whole `put_bytes` from the operation's original starting address
on every retry (with the identical bytes, so the final contents agree with a
resumed write). -/
theorem c1_amended_retry_resume_addresses :
    (∀ fuel (s : St) addr rest a k,
      (a, k) ∈ attemptsOf (oEvents (cmdPut fuel s (addr :: rest))) →
        a = addr ∧ k = rest.length) ∧
    (∀ fuel (s : St) dst src n rest a k,
      (a, k) ∈ attemptsOf (oEvents (cmdCopy fuel s (dst :: src :: n :: rest))) →
        a = dst) ∧
    (∀ fuel (s : St) start num val rest a k,
      (a, k) ∈ attemptsOf (oEvents (cmdFill fuel s (start :: num :: val :: rest))) →
        a = start + (num - k) ∧ k ≤ num) := by
  refine ⟨?_, ?_, ?_⟩
  · intro fuel s addr rest a k hmem
    have h := putLoop_attempts addr (rest.map fun b => b % 256) fuel s []
      (by intro a k hm; cases hm) a k hmem
    simpa [List.length_map] using h
  · intro fuel s dst src n rest a k hmem
    revert hmem
    simp only [cmdCopy]
    cases hg : getBytes s.mem s.mmu_pmcb src n with
    | ok buf pm' =>
      intro hmem
      exact (putLoop_attempts dst _ fuel _ [] (by intro a k hm; cases hm) a k hmem).1
    | pageFault buf pm' =>
      intro hmem
      refine (putLoop_attempts dst _ fuel _ [Event.exn .pageFaultOnRead pm'.next_vaddress]
        ?_ a k hmem).1
      intro a k hm
      rw [attemptsOf_cons_exn, attemptsOf_nil] at hm
      cases hm
  · intro fuel s start num val rest a k hmem
    exact fillLoop_attempts start num (val % 256) fuel start 0 s []
      (by omega) (by omega) (by intro a k hm; cases hm) a k hmem

/-- Every byte position where the actual value differs from the expected one
produces a mismatch report, and the loop continues past it. -/
theorem cmpEvents_complete : ∀ (actual expected : List Nat) (addr i b e : Nat),
    actual.get? i = some b → expected.get? i = some e → b ≠ e →
      Event.cmpErr (addr + i) e b ∈ cmpEvents addr actual expected := by
  intro actual
  induction actual with
  | nil => intro expected addr i b e hb; cases i <;> cases hb
  | cons x xs ih =>
    intro expected addr i b e hb he hne
    cases expected with
    | nil => cases i <;> cases he
    | cons y ys =>
      cases i with
      | zero =>
        cases hb; cases he
        simp only [cmpEvents]
        rw [if_pos hne]
        simp
      | succ i =>
        have hmem := ih ys (addr + 1) i b e (by simpa using hb) (by simpa using he) hne
        simp only [cmpEvents]
        have : addr + 1 + i = addr + (i + 1) := by omega
        rw [this] at hmem
        exact List.mem_append.mpr (Or.inr hmem)

/-- Every mismatch report corresponds to a position whose actual byte differs
from the expected value, with the reported address, expected and actual values
taken from that position. -/
theorem cmpEvents_sound : ∀ (actual expected : List Nat) (addr a x y : Nat),
    Event.cmpErr a x y ∈ cmpEvents addr actual expected →
      ∃ i b e, a = addr + i ∧ actual.get? i = some b ∧ expected.get? i = some e ∧
        b ≠ e ∧ x = e ∧ y = b := by
  intro actual
  induction actual with
  | nil => intro expected addr a x y h; cases expected <;> cases h
  | cons b bs ih =>
    intro expected addr a x y h
    cases expected with
    | nil => cases h
    | cons e es =>
      simp only [cmpEvents] at h
      rcases List.mem_append.mp h with h | h
      · by_cases hne : b ≠ e
        · rw [if_pos hne] at h
          have h2 := List.mem_singleton.mp h
          obtain ⟨ha, hx, hy⟩ := Event.cmpErr.inj h2
          exact ⟨0, b, e, by omega, rfl, rfl, hne, hx, hy⟩
        · rw [if_neg hne] at h
          cases h
      · obtain ⟨i, b', e', h1, h2, h3, h4, h5, h6⟩ := ih es (addr + 1) a x y h
        exact ⟨i + 1, b', e', by omega, by simpa using h2, by simpa using h3, h4, h5, h6⟩

/-- C5 counterexample: the claim fails on the code at a concrete input.  On
`exSt1`, `compare 0xFFF 5 7` reads the byte at `0xFFF` successfully (value 0,
differing from the expected 5) and then faults at `0x1000`; the code reports
the PageFault but produces no compare line at all — the successfully read byte
is never compared, because the compare loop sits inside the `try` block that
the exception aborts. -/
theorem c5_counterexample :
    (cmdCompare exSt1 [4095, 5, 7]).events = [Event.exn .pageFault 4096] ∧
    countCmpErr ((cmdCompare exSt1 [4095, 5, 7]).events) = 0 ∧
    trw mem1 0 4095 = some (12287, true) ∧
    readB mem1 12287 = 0 ∧ (0 ≠ 5) := by
  refine ⟨by decide, by decide, by decide, by decide, by decide⟩

/-- C5 as amended: when the read faults, `compare` reports the exception and
compares nothing at all — not even the bytes of the mapped prefix it did read;
when the read succeeds completely, every byte differing from its expected
value is reported with its address, expected and actual values, without
aborting, and every report corresponds to such a differing byte. -/
theorem c5_amended_compare_faults_skip_all :
    (∀ (s : St) addr expected buf pm',
      getBytes s.mem s.mmu_pmcb addr (List.length expected) = .pageFault buf pm' →
        (cmdCompare s (addr :: expected)).events =
          [Event.exn .pageFault pm'.next_vaddress] ∧
        countCmpErr ((cmdCompare s (addr :: expected)).events) = 0) ∧
    (∀ (s : St) addr expected buf pm',
      getBytes s.mem s.mmu_pmcb addr (List.length expected) = .ok buf pm' →
        (∀ i b e, buf.get? i = some b → expected.get? i = some e → b ≠ e →
          Event.cmpErr (addr + i) e b ∈ (cmdCompare s (addr :: expected)).events) ∧
        (∀ a x y, Event.cmpErr a x y ∈ (cmdCompare s (addr :: expected)).events →
          ∃ i b e, a = addr + i ∧ buf.get? i = some b ∧ expected.get? i = some e ∧
            b ≠ e ∧ x = e ∧ y = b)) := by
  constructor
  · intro s addr expected buf pm' hg
    simp only [cmdCompare, hg, Out.events]
    exact ⟨by trivial, by rfl⟩
  · intro s addr expected buf pm' hg
    simp only [cmdCompare, hg, Out.events]
    constructor
    · intro i b e hb he hne
      exact cmpEvents_complete buf expected addr i b e hb he hne
    · intro a x y hm
      exact cmpEvents_sound buf expected addr a x y hm

/-- Shift an `Execute` result by `k` already-executed lines whose output was
`ev0`. -/
def ExecRes.bump (k : Nat) (ev0 : List Event) : ExecRes → ExecRes
  | .finished n s ev => .finished (k + n) s (ev0 ++ ev)
  | .quotaHalt n s ev => .quotaHalt (k + n) s (ev0 ++ ev)
  | .crashed c ev => .crashed c (ev0 ++ ev)
  | .fuelOut => .fuelOut

theorem executeFrom_cons_ok (fuel : Nat) (s s2 : St) (l : Line)
    (rest : List Line) (ev : List Event) (h : runLine fuel s l = some (.ok s2 ev)) :
    executeFrom fuel s (l :: rest) = (executeFrom fuel s2 rest).bump 1 ev := by
  simp only [executeFrom, h]
  cases executeFrom fuel s2 rest <;> simp [ExecRes.bump] <;> omega

/-- C7: the command loop halts on a quota failure and only there.  If the
first `pre.length` lines run normally and the next line `l` then fails with
quota-exceeded, `Execute` reports the quota message and returns `pre.length`,
the number of lines executed before the failing one, for any remaining lines
`post` (which are never reached); if instead `l` returns normally — as a
command hit by a write-permission fault does — the loop simply continues into
`post` with the count advanced by one. -/
theorem c7_quota_failure_halts_execute (fuel : Nat) (s s1 : St)
    (pre post : List Line) (l : Line) (ev1 : List Event)
    (hpre : executeFrom fuel s pre = .finished pre.length s1 ev1) :
    (∀ s2 ev2, runLine fuel s1 l = some (.quotaFail s2 ev2) →
      executeFrom fuel s (pre ++ l :: post) =
        .quotaHalt pre.length s2 (ev1 ++ (ev2 ++ [Event.quotaMsg]))) ∧
    (∀ s2 ev2, runLine fuel s1 l = some (.ok s2 ev2) →
      executeFrom fuel s (pre ++ l :: post) =
        (executeFrom fuel s2 post).bump (pre.length + 1) (ev1 ++ ev2)) := by
  induction pre generalizing s ev1 with
  | nil =>
    simp only [executeFrom, List.length_nil] at hpre
    obtain ⟨hn0, hs, hev⟩ := ExecRes.finished.inj hpre
    subst hs; subst hev
    constructor
    · intro s2 ev2 hrun
      simp only [List.nil_append, executeFrom, hrun, List.length_nil]
    · intro s2 ev2 hrun
      rw [List.nil_append, executeFrom_cons_ok fuel s s2 l post ev2 hrun]
      simp only [List.length_nil, List.nil_append, Nat.zero_add]
  | cons l0 pre ih =>
    rw [executeFrom] at hpre
    split at hpre
    · cases hpre
    · rename_i sa eva hrun0
      split at hpre
      · rename_i n2 s2x ev2x hrest
        obtain ⟨hn, hs, hev⟩ := ExecRes.finished.inj hpre
        subst hs; subst hev
        have hn2 : n2 = pre.length := by
          simp only [List.length_cons] at hn
          omega
        subst hn2
        obtain ⟨hq, ho⟩ := ih sa ev2x hrest
        constructor
        · intro s2 ev2 hrun
          rw [List.cons_append, executeFrom_cons_ok fuel s sa l0 _ eva hrun0,
            hq s2 ev2 hrun]
          simp [ExecRes.bump, List.length_cons, List.append_assoc]
          omega
        · intro s2 ev2 hrun
          rw [List.cons_append, executeFrom_cons_ok fuel s sa l0 _ eva hrun0,
            ho s2 ev2 hrun]
          cases executeFrom fuel s2 post <;>
            simp [ExecRes.bump, List.length_cons, List.append_assoc] <;> omega
      · cases hpre
      · cases hpre
      · cases hpre
    · cases hpre
    · cases hpre

/-- Witness for C7 at a concrete input: after `quota 1; fill 0 1 7` (two lines,
one page allocated), `put 0x400000 1` needs a second page and fails on the
quota check; `Execute` halts with return value 2 and a quota message. -/
theorem c7_quota_failure_halts_execute_witness :
    ∃ s2 ev2,
      executeFrom 5 initProcess
          ([("quota", [1]), ("fill", [0, 1, 7])] ++ ("put", [4194304, 1]) :: []) =
        .quotaHalt 2 s2 ev2 := by
  obtain ⟨hq, _⟩ := c7_quota_failure_halts_execute 5 initProcess _
    [("quota", [1]), ("fill", [0, 1, 7])] [] ("put", [4194304, 1]) _ rfl
  exact ⟨_, _, hq _ _ rfl⟩

/-! Byte- and word-level laws of the physical memory. -/

theorem writeB_apply_same (m : Mem) (a v : Nat) : writeB m a v a = v := by
  simp [writeB]

theorem writeB_apply_ne (m : Mem) (a v x : Nat) (h : x ≠ a) : writeB m a v x = m x := by
  simp [writeB, h]

theorem writeWord32_apply_lo (m : Mem) (a v x : Nat) (h : x < a) :
    writeWord32 m a v x = m x := by
  simp only [writeWord32, writeB]
  split_ifs <;> omega

theorem writeWord32_apply_hi (m : Mem) (a v x : Nat) (h : a + 3 < x) :
    writeWord32 m a v x = m x := by
  simp only [writeWord32, writeB]
  split_ifs <;> omega

theorem writeWord32_apply0 (m : Mem) (a v : Nat) : writeWord32 m a v a = v := by
  simp only [writeWord32, writeB]
  split_ifs <;> omega

theorem writeWord32_apply1 (m : Mem) (a v : Nat) :
    writeWord32 m a v (a + 1) = v / 256 := by
  simp only [writeWord32, writeB]
  split_ifs <;> omega

theorem writeWord32_apply2 (m : Mem) (a v : Nat) :
    writeWord32 m a v (a + 2) = v / 65536 := by
  simp only [writeWord32, writeB]
  split_ifs <;> omega

theorem writeWord32_apply3 (m : Mem) (a v : Nat) :
    writeWord32 m a v (a + 3) = v / 16777216 := by
  simp only [writeWord32, writeB]
  split_ifs <;> omega

theorem readWord32_lt (m : Mem) (a : Nat) : readWord32 m a < 4294967296 := by
  simp only [readWord32, readB]
  omega

theorem readWord32_writeWord32_same (m : Mem) (a v : Nat) :
    readWord32 (writeWord32 m a v) a = v % 4294967296 := by
  simp only [readWord32, readB, writeWord32_apply0, writeWord32_apply1,
    writeWord32_apply2, writeWord32_apply3]
  omega

theorem readWord32_writeWord32_disj (m : Mem) (a v x : Nat)
    (h : x + 3 < a ∨ a + 3 < x) :
    readWord32 (writeWord32 m a v) x = readWord32 m x := by
  simp only [readWord32, readB]
  rw [show writeWord32 m a v x = m x by
        rcases h with h | h
        · exact writeWord32_apply_lo m a v x (by omega)
        · exact writeWord32_apply_hi m a v x (by omega),
      show writeWord32 m a v (x + 1) = m (x + 1) by
        rcases h with h | h
        · exact writeWord32_apply_lo m a v (x + 1) (by omega)
        · exact writeWord32_apply_hi m a v (x + 1) (by omega),
      show writeWord32 m a v (x + 2) = m (x + 2) by
        rcases h with h | h
        · exact writeWord32_apply_lo m a v (x + 2) (by omega)
        · exact writeWord32_apply_hi m a v (x + 2) (by omega),
      show writeWord32 m a v (x + 3) = m (x + 3) by
        rcases h with h | h
        · exact writeWord32_apply_lo m a v (x + 3) (by omega)
        · exact writeWord32_apply_hi m a v (x + 3) (by omega)]

/-- Byte addresses in distinct page frames form disjoint 4-byte words as long
as neither word crosses a page boundary. -/
theorem word_disj_of_frame_ne (x y : Nat) (hx : x % 4096 ≤ 4092)
    (hy : y % 4096 ≤ 4092) (h : x / 4096 ≠ y / 4096) :
    x + 3 < y ∨ y + 3 < x := by omega

/-- Reading a word from an all-zero region yields 0. -/
theorem readWord32_zero_region (m : Mem) (B x : Nat)
    (h : ∀ b, B ≤ b → m b = 0) (hx : B ≤ x) : readWord32 m x = 0 := by
  simp only [readWord32, readB]
  rw [h x (by omega), h (x + 1) (by omega), h (x + 2) (by omega), h (x + 3) (by omega)]

/-- A page-table-entry word at slot `i` of an aligned table at `base` is
untouched by a word write into a different page frame. -/
theorem readWord32_entry_stable (m : Mem) (y w base i : Nat)
    (hbase : base % 4096 = 0) (hi : i < 1024) (hy : y % 4096 ≤ 4092)
    (hne : y / 4096 ≠ base / 4096) :
    readWord32 (writeWord32 m y w) (base + 4 * i) = readWord32 m (base + 4 * i) := by
  apply readWord32_writeWord32_disj
  have hx1 : (base + 4 * i) % 4096 ≤ 4092 := by omega
  have hx2 : (base + 4 * i) / 4096 = base / 4096 := by omega
  have := word_disj_of_frame_ne (base + 4 * i) y hx1 hy (by omega)
  tauto

/-- Two distinct entry slots of one aligned table hold disjoint words. -/
theorem readWord32_entry_stable_same_table (m : Mem) (base j j0 w : Nat)
    (hj : j < 1024) (hj0 : j0 < 1024) (hne : j ≠ j0) :
    readWord32 (writeWord32 m (base + 4 * j0) w) (base + 4 * j) =
      readWord32 m (base + 4 * j) := by
  apply readWord32_writeWord32_disj
  omega

/-- Memory `m2` differs from `m` at most in bit 1 (the writable bit) of
4-byte-aligned bytes: every byte keeps its bit 0 and its bits above 1, and
non-aligned bytes are exactly unchanged.  This is the only kind of change
`SetWritableStatus` makes. -/
def bitOnly (m m2 : Mem) : Prop :=
  ∀ b, readB m2 b % 2 = readB m b % 2 ∧ readB m2 b / 4 = readB m b / 4 ∧
    (b % 4 ≠ 0 → readB m2 b = readB m b)

theorem bitOnly_refl (m : Mem) : bitOnly m m := fun _ => ⟨rfl, rfl, fun _ => rfl⟩

theorem bitOnly_trans (m1 m2 m3 : Mem) (h1 : bitOnly m1 m2) (h2 : bitOnly m2 m3) :
    bitOnly m1 m3 := by
  intro b
  obtain ⟨a1, a2, a3⟩ := h1 b
  obtain ⟨b1, b2, b3⟩ := h2 b
  exact ⟨b1.trans a1, b2.trans a2, fun h => (b3 h).trans (a3 h)⟩

/-- Writing back a word with only its bit 1 replaced is a `bitOnly` change
when the word sits at a 4-aligned address. -/
theorem bitOnly_writeWord32_update (m : Mem) (y : Nat) (hy4 : y % 4 = 0) (w2 : Nat)
    (hw2 : w2 = 2 ∨ w2 = 0) :
    bitOnly m (writeWord32 m y (readWord32 m y - 2 * (readWord32 m y / 2 % 2) + w2)) := by
  have hdec : readWord32 m y =
      m y % 256 + 256 * (m (y + 1) % 256) + 65536 * (m (y + 2) % 256) +
        16777216 * (m (y + 3) % 256) := rfl
  intro b
  by_cases hb0 : b = y
  · subst hb0
    simp only [readB, writeWord32_apply0]
    refine ⟨by omega, by omega, fun hc => absurd hy4 hc⟩
  · by_cases hb1 : b = y + 1
    · subst hb1
      simp only [readB, writeWord32_apply1]
      refine ⟨by omega, by omega, fun _ => by omega⟩
    · by_cases hb2 : b = y + 2
      · subst hb2
        simp only [readB, writeWord32_apply2]
        refine ⟨by omega, by omega, fun _ => by omega⟩
      · by_cases hb3 : b = y + 3
        · subst hb3
          simp only [readB, writeWord32_apply3]
          refine ⟨by omega, by omega, fun _ => by omega⟩
        · have hout : writeWord32 m y
              (readWord32 m y - 2 * (readWord32 m y / 2 % 2) + w2) b = m b := by
            rcases Nat.lt_or_ge b y with h | h
            · exact writeWord32_apply_lo m y _ b h
            · exact writeWord32_apply_hi m y _ b (by omega)
          simp [readB, hout]

theorem setWritableStatus_bitOnly (m : Mem) (root v : Nat) (w : Bool) :
    bitOnly m (setWritableStatus m root v w) := by
  simp only [setWritableStatus]
  split
  · exact bitOnly_refl m
  · split
    · exact bitOnly_refl m
    · refine bitOnly_writeWord32_update m _ ?_ _ (by cases w <;> simp)
      unfold pageBaseOf
      omega

theorem pageBaseOf_eq_of_div (x y : Nat) (h : x / 4096 = y / 4096) :
    pageBaseOf x = pageBaseOf y := by
  unfold pageBaseOf
  rw [h]

theorem pageBaseOf_mod4 (x : Nat) : pageBaseOf x % 4 = 0 := by
  unfold pageBaseOf
  omega

theorem setWritableLoop_bitOnly (root : Nat) (w : Bool) :
    ∀ (cnt : Nat) (m : Mem) (a : Nat), bitOnly m (setWritableLoop m root a w cnt) := by
  intro cnt
  induction cnt with
  | zero => intro m a; exact bitOnly_refl m
  | succ k ih =>
    intro m a
    rw [setWritableLoop]
    exact bitOnly_trans _ _ _ (setWritableStatus_bitOnly m root a w) (ih _ _)

/-- A `bitOnly` change preserves every word's bit 0 and its value above bit 11
at 4-aligned addresses. -/
theorem bitOnly_readWord32 (m m2 : Mem) (h : bitOnly m m2) (x : Nat) (hx : x % 4 = 0) :
    readWord32 m2 x % 2 = readWord32 m x % 2 ∧
    readWord32 m2 x / 4096 = readWord32 m x / 4096 := by
  obtain ⟨a1, a2, _⟩ := h x
  obtain ⟨_, _, b3⟩ := h (x + 1)
  obtain ⟨_, _, c3⟩ := h (x + 2)
  obtain ⟨_, _, d3⟩ := h (x + 3)
  have hb := b3 (by omega)
  have hc := c3 (by omega)
  have hd := d3 (by omega)
  simp only [readB] at a1 a2 hb hc hd
  simp only [readWord32, readB]
  rw [hb, hc, hd]
  constructor
  · omega
  · omega

/-- A `bitOnly` change leaves the page-table structure intact: which pages are
present and which physical address each maps to are unchanged; only writable
bits may differ.  (`root % 4 = 0` holds for any page-aligned table root.) -/
theorem bitOnly_trw (m m2 : Mem) (h : bitOnly m m2) (root v : Nat)
    (hroot : root % 4 = 0) :
    (trw m root v = Option.none → trw m2 root v = Option.none) ∧
    (∀ p w, trw m root v = some (p, w) → ∃ w2, trw m2 root v = some (p, w2)) := by
  have hx1 : (root + 4 * l1IndexOf v) % 4 = 0 := by omega
  obtain ⟨e1p, e1f⟩ := bitOnly_readWord32 m m2 h (root + 4 * l1IndexOf v) hx1
  by_cases h1 : readWord32 m (root + 4 * l1IndexOf v) % 2 = 0
  · constructor
    · intro _
      simp only [trw]
      rw [if_pos (by omega)]
    · intro p w hw
      simp only [trw] at hw
      rw [if_pos h1] at hw
      cases hw
  · have hpb : pageBaseOf (readWord32 m2 (root + 4 * l1IndexOf v)) =
        pageBaseOf (readWord32 m (root + 4 * l1IndexOf v)) :=
      pageBaseOf_eq_of_div _ _ e1f
    have hx2 : (pageBaseOf (readWord32 m (root + 4 * l1IndexOf v)) + 4 * l2IndexOf v) % 4 = 0 := by
      have := pageBaseOf_mod4 (readWord32 m (root + 4 * l1IndexOf v))
      omega
    obtain ⟨e2p, e2f⟩ := bitOnly_readWord32 m m2 h
      (pageBaseOf (readWord32 m (root + 4 * l1IndexOf v)) + 4 * l2IndexOf v) hx2
    have hpb2 : pageBaseOf (readWord32 m2 (pageBaseOf (readWord32 m (root + 4 * l1IndexOf v)) +
        4 * l2IndexOf v)) =
        pageBaseOf (readWord32 m (pageBaseOf (readWord32 m (root + 4 * l1IndexOf v)) +
          4 * l2IndexOf v)) :=
      pageBaseOf_eq_of_div _ _ e2f
    by_cases h2 : readWord32 m (pageBaseOf (readWord32 m (root + 4 * l1IndexOf v)) +
        4 * l2IndexOf v) % 2 = 0
    · constructor
      · intro _
        simp only [trw]
        rw [if_neg (by omega), hpb]
        rw [if_pos (by omega)]
      · intro p w hw
        simp only [trw] at hw
        rw [if_neg h1, if_pos h2] at hw
        cases hw
    · constructor
      · intro hn
        simp only [trw] at hn
        rw [if_neg h1, if_neg h2] at hn
        cases hn
      · intro p w hw
        simp only [trw] at hw
        rw [if_neg h1, if_neg h2] at hw
        have hp := congrArg Prod.fst (Option.some.inj hw)
        simp only [trw]
        rw [if_neg (by omega), hpb, if_neg (by omega), hpb2]
        exact ⟨_, by rw [show pageBaseOf (readWord32 m
          (pageBaseOf (readWord32 m (root + 4 * l1IndexOf v)) + 4 * l2IndexOf v)) +
            v % 4096 = p from hp]⟩

/-! Well-formed page tables.  The invariant says that the root table and every
second-level table and data page live in distinct frames already handed out by
the allocator, and that everything beyond the allocator's high-water mark is
still zero — exactly the state of affairs the construction and
`AllocateAndMapPage` maintain over the zero-initialized memory. -/

/-- L1 entry of slot `i`. -/
def l1e (m : Mem) (root i : Nat) : Nat := readWord32 m (root + 4 * i)

/-- Frame address of the L2 table referenced by L1 slot `i`. -/
def l2base (m : Mem) (root i : Nat) : Nat := pageBaseOf (l1e m root i)

/-- L2 entry of slot `j` in the table of L1 slot `i`. -/
def l2e (m : Mem) (root i j : Nat) : Nat := readWord32 m (l2base m root i + 4 * j)

/-- Frame address of the data page mapped by entry `(i, j)`. -/
def dframe (m : Mem) (root i j : Nat) : Nat := pageBaseOf (l2e m root i j)

structure WF (m : Mem) (root N : Nat) : Prop where
  rootAligned : root % 4096 = 0
  rootLt : root / 4096 < N
  hi : ∀ b, 4096 * N ≤ b → m b = 0
  l1frame : ∀ i, i < 1024 → l1e m root i % 2 = 1 →
    l2base m root i / 4096 < N ∧ l2base m root i ≠ root
  l1inj : ∀ i j, i < 1024 → j < 1024 → i ≠ j → l1e m root i % 2 = 1 →
    l1e m root j % 2 = 1 → l2base m root i ≠ l2base m root j
  l2frame : ∀ i, i < 1024 → l1e m root i % 2 = 1 → ∀ j, j < 1024 →
    l2e m root i j % 2 = 1 →
    dframe m root i j / 4096 < N ∧ dframe m root i j ≠ root ∧
    ∀ i2, i2 < 1024 → l1e m root i2 % 2 = 1 → dframe m root i j ≠ l2base m root i2

theorem pageBaseOf_aligned (x : Nat) : pageBaseOf x % 4096 = 0 := by
  unfold pageBaseOf
  omega

theorem pageBaseOf_div (x : Nat) : pageBaseOf x / 4096 = x / 4096 := by
  unfold pageBaseOf
  omega

theorem aligned_ne_div (x y : Nat) (hx : x % 4096 = 0) (hy : y % 4096 = 0)
    (h : x ≠ y) : x / 4096 ≠ y / 4096 := by omega

/-- The page-table walk written with the entry accessors. -/
theorem trw_eq (m : Mem) (root v : Nat) : trw m root v =
    (if l1e m root (l1IndexOf v) % 2 = 0 then Option.none
     else if l2e m root (l1IndexOf v) (l2IndexOf v) % 2 = 0 then Option.none
     else some (dframe m root (l1IndexOf v) (l2IndexOf v) + v % 4096,
       l2e m root (l1IndexOf v) (l2IndexOf v) / 2 % 2 == 1)) := rfl

theorem l1IndexOf_lt (v : Nat) (h : v < 4294967296) : l1IndexOf v < 1024 := by
  unfold l1IndexOf
  omega

theorem l2IndexOf_lt (v : Nat) : l2IndexOf v < 1024 := by
  unfold l2IndexOf
  omega

/-- Page number of an address, split into its two walk indices. -/
theorem page_split (v : Nat) : v / 4096 = 1024 * l1IndexOf v + l2IndexOf v := by
  unfold l1IndexOf l2IndexOf
  omega

theorem trw_some_elim (m : Mem) (root v p : Nat) (w : Bool)
    (h : trw m root v = some (p, w)) :
    l1e m root (l1IndexOf v) % 2 = 1 ∧
    l2e m root (l1IndexOf v) (l2IndexOf v) % 2 = 1 ∧
    p = dframe m root (l1IndexOf v) (l2IndexOf v) + v % 4096 ∧
    w = (l2e m root (l1IndexOf v) (l2IndexOf v) / 2 % 2 == 1) := by
  rw [trw_eq] at h
  by_cases h1 : l1e m root (l1IndexOf v) % 2 = 0
  · rw [if_pos h1] at h; cases h
  · rw [if_neg h1] at h
    by_cases h2 : l2e m root (l1IndexOf v) (l2IndexOf v) % 2 = 0
    · rw [if_pos h2] at h; cases h
    · rw [if_neg h2] at h
      obtain ⟨hp, hw⟩ := Prod.mk.inj (Option.some.inj h)
      exact ⟨by omega, by omega, hp.symm, hw.symm⟩

theorem trw_none_elim (m : Mem) (root v : Nat) (h : trw m root v = Option.none) :
    l1e m root (l1IndexOf v) % 2 = 0 ∨
    (l1e m root (l1IndexOf v) % 2 = 1 ∧ l2e m root (l1IndexOf v) (l2IndexOf v) % 2 = 0) := by
  rw [trw_eq] at h
  by_cases h1 : l1e m root (l1IndexOf v) % 2 = 0
  · exact Or.inl h1
  · rw [if_neg h1] at h
    by_cases h2 : l2e m root (l1IndexOf v) (l2IndexOf v) % 2 = 0
    · exact Or.inr ⟨by omega, h2⟩
    · rw [if_neg h2] at h; cases h

/-- Two addresses in the same page use the same walk indices. -/
theorem indices_eq_of_page (u v : Nat) (h : u / 4096 = v / 4096) :
    l1IndexOf u = l1IndexOf v ∧ l2IndexOf u = l2IndexOf v := by
  have hu := page_split u
  have hv := page_split v
  have h1 := l2IndexOf_lt u
  have h2 := l2IndexOf_lt v
  omega

/-- Conversely, equal walk indices mean the same page. -/
theorem page_eq_of_indices (u v : Nat) (h1 : l1IndexOf u = l1IndexOf v)
    (h2 : l2IndexOf u = l2IndexOf v) : u / 4096 = v / 4096 := by
  have hu := page_split u
  have hv := page_split v
  omega

/-- A one-byte write into a page frame other than `base`'s leaves every entry
word of the aligned table at `base` unchanged. -/
theorem readWord32_entry_stable_byte (m : Mem) (p b base i : Nat)
    (hbase : base % 4096 = 0) (hi : i < 1024) (hp : p / 4096 ≠ base / 4096) :
    readWord32 (writeB m p b) (base + 4 * i) = readWord32 m (base + 4 * i) := by
  have h0 : base + 4 * i ≠ p := by omega
  have h1 : base + 4 * i + 1 ≠ p := by omega
  have h2 : base + 4 * i + 2 ≠ p := by omega
  have h3 : base + 4 * i + 3 ≠ p := by omega
  simp only [readWord32, readB, writeB_apply_ne m p b _ h0,
    writeB_apply_ne m p b _ h1, writeB_apply_ne m p b _ h2,
    writeB_apply_ne m p b _ h3]

/-- Facts about the physical byte a successful translation addresses: it lies
in a data frame — not in the root table and not in any second-level table. -/
theorem trw_target_frame (m : Mem) (root N v p : Nat) (w : Bool)
    (hWF : WF m root N) (hv : v < 4294967296) (htr : trw m root v = some (p, w)) :
    p / 4096 < N ∧ p / 4096 ≠ root / 4096 ∧
    (∀ i, i < 1024 → l1e m root i % 2 = 1 → p / 4096 ≠ l2base m root i / 4096) := by
  obtain ⟨h1, h2, hp, _⟩ := trw_some_elim m root v p w htr
  obtain ⟨hdn, hdr, hdt⟩ := hWF.l2frame (l1IndexOf v) (l1IndexOf_lt v hv) h1
    (l2IndexOf v) (l2IndexOf_lt v) h2
  have hda : dframe m root (l1IndexOf v) (l2IndexOf v) % 4096 = 0 := pageBaseOf_aligned _
  have hpd : p / 4096 = dframe m root (l1IndexOf v) (l2IndexOf v) / 4096 := by omega
  refine ⟨by omega, ?_, ?_⟩
  · rw [hpd]
    exact aligned_ne_div _ _ hda hWF.rootAligned hdr
  · intro i hi hpi
    rw [hpd]
    exact aligned_ne_div _ _ hda (pageBaseOf_aligned _) (hdt i hi hpi)

/-- A byte write through a successful translation leaves every page-table
entry — and hence every translation — unchanged. -/
theorem trw_writeB_data (m : Mem) (root N v p : Nat) (w : Bool)
    (hWF : WF m root N) (hv : v < 4294967296) (htr : trw m root v = some (p, w))
    (b : Nat) :
    ∀ u, u < 4294967296 → trw (writeB m p b) root u = trw m root u := by
  obtain ⟨hfN, hfr, hft⟩ := trw_target_frame m root N v p w hWF hv htr
  intro u hu
  have hl1 : l1e (writeB m p b) root (l1IndexOf u) = l1e m root (l1IndexOf u) :=
    readWord32_entry_stable_byte m p b root (l1IndexOf u) hWF.rootAligned
      (l1IndexOf_lt u hu) hfr
  rw [trw_eq, trw_eq, hl1]
  by_cases hp1 : l1e m root (l1IndexOf u) % 2 = 0
  · rw [if_pos hp1, if_pos hp1]
  · rw [if_neg hp1, if_neg hp1]
    have hl2b : l2base (writeB m p b) root (l1IndexOf u) = l2base m root (l1IndexOf u) := by
      unfold l2base
      rw [hl1]
    have hl2 : l2e (writeB m p b) root (l1IndexOf u) (l2IndexOf u) =
        l2e m root (l1IndexOf u) (l2IndexOf u) := by
      unfold l2e
      rw [hl2b]
      exact readWord32_entry_stable_byte m p b _ (l2IndexOf u) (pageBaseOf_aligned _)
        (l2IndexOf_lt u) (hft (l1IndexOf u) (l1IndexOf_lt u hu) (by omega))
    rw [hl2]
    by_cases hp2 : l2e m root (l1IndexOf u) (l2IndexOf u) % 2 = 0
    · rw [if_pos hp2, if_pos hp2]
    · rw [if_neg hp2, if_neg hp2]
      unfold dframe
      rw [hl2]

/-- A byte write through a successful translation preserves well-formedness. -/
theorem WF_writeB_data (m : Mem) (root N v p : Nat) (w : Bool)
    (hWF : WF m root N) (hv : v < 4294967296) (htr : trw m root v = some (p, w))
    (b : Nat) : WF (writeB m p b) root N := by
  obtain ⟨hfN, hfr, hft⟩ := trw_target_frame m root N v p w hWF hv htr
  have hl1 : ∀ i, i < 1024 → l1e (writeB m p b) root i = l1e m root i := fun i hi =>
    readWord32_entry_stable_byte m p b root i hWF.rootAligned hi hfr
  have hl2b : ∀ i, i < 1024 → l2base (writeB m p b) root i = l2base m root i := by
    intro i hi
    unfold l2base
    rw [hl1 i hi]
  have hl2 : ∀ i, i < 1024 → l1e m root i % 2 = 1 → ∀ j, j < 1024 →
      l2e (writeB m p b) root i j = l2e m root i j := by
    intro i hi hpi j hj
    unfold l2e
    rw [hl2b i hi]
    exact readWord32_entry_stable_byte m p b _ j (pageBaseOf_aligned _) hj (hft i hi hpi)
  refine ⟨hWF.rootAligned, hWF.rootLt, ?_, ?_, ?_, ?_⟩
  · intro b2 hb2
    rw [writeB_apply_ne m p b b2 (by omega)]
    exact hWF.hi b2 hb2
  · intro i hi hpi
    rw [hl1 i hi] at hpi
    rw [hl2b i hi]
    exact hWF.l1frame i hi hpi
  · intro i j hi hj hne hpi hpj
    rw [hl1 i hi] at hpi
    rw [hl1 j hj] at hpj
    rw [hl2b i hi, hl2b j hj]
    exact hWF.l1inj i j hi hj hne hpi hpj
  · intro i hi hpi j hj hpj
    rw [hl1 i hi] at hpi
    rw [hl2 i hi hpi j hj] at hpj
    have hd : dframe (writeB m p b) root i j = dframe m root i j := by
      unfold dframe
      rw [hl2 i hi hpi j hj]
    rw [hd]
    obtain ⟨c1, c2, c3⟩ := hWF.l2frame i hi hpi j hj hpj
    refine ⟨c1, c2, ?_⟩
    intro i2 hi2 hpi2
    rw [hl1 i2 hi2] at hpi2
    rw [hl2b i2 hi2]
    exact c3 i2 hi2 hpi2

/-- Address of the L2 entry `(i0, j0)`. -/
def entryAddr (m : Mem) (root i0 j0 : Nat) : Nat := l2base m root i0 + 4 * j0

theorem entryAddr_mod (m : Mem) (root i0 j0 : Nat) (hj0 : j0 < 1024) :
    entryAddr m root i0 j0 % 4096 = 4 * j0 := by
  have := pageBaseOf_aligned (l1e m root i0)
  unfold entryAddr l2base
  omega

theorem entryAddr_div (m : Mem) (root i0 j0 : Nat) (hj0 : j0 < 1024) :
    entryAddr m root i0 j0 / 4096 = l2base m root i0 / 4096 := by
  have h1 : l2base m root i0 % 4096 = 0 := pageBaseOf_aligned _
  show (l2base m root i0 + 4 * j0) / 4096 = _
  omega

theorem tw_l1e (m : Mem) (root N i0 j0 w2 : Nat) (hWF : WF m root N)
    (hi0 : i0 < 1024) (hp0 : l1e m root i0 % 2 = 1) (hj0 : j0 < 1024) :
    ∀ i, i < 1024 →
      l1e (writeWord32 m (entryAddr m root i0 j0) w2) root i = l1e m root i := by
  intro i hi
  apply readWord32_entry_stable m _ w2 root i hWF.rootAligned hi
    (by rw [entryAddr_mod m root i0 j0 hj0]; omega)
  rw [entryAddr_div m root i0 j0 hj0]
  exact aligned_ne_div _ _ (pageBaseOf_aligned _) hWF.rootAligned
    (hWF.l1frame i0 hi0 hp0).2

theorem tw_l2base (m : Mem) (root N i0 j0 w2 : Nat) (hWF : WF m root N)
    (hi0 : i0 < 1024) (hp0 : l1e m root i0 % 2 = 1) (hj0 : j0 < 1024) :
    ∀ i, i < 1024 →
      l2base (writeWord32 m (entryAddr m root i0 j0) w2) root i = l2base m root i := by
  intro i hi
  unfold l2base
  rw [tw_l1e m root N i0 j0 w2 hWF hi0 hp0 hj0 i hi]

theorem tw_l2e (m : Mem) (root N i0 j0 w2 : Nat) (hWF : WF m root N)
    (hi0 : i0 < 1024) (hp0 : l1e m root i0 % 2 = 1) (hj0 : j0 < 1024) :
    ∀ i, i < 1024 → l1e m root i % 2 = 1 → ∀ j, j < 1024 → (i ≠ i0 ∨ j ≠ j0) →
      l2e (writeWord32 m (entryAddr m root i0 j0) w2) root i j = l2e m root i j := by
  intro i hi hpi j hj hne
  unfold l2e
  rw [tw_l2base m root N i0 j0 w2 hWF hi0 hp0 hj0 i hi]
  rcases eq_or_ne i i0 with h | h
  · have hjne : j ≠ j0 := by
      rcases hne with hne | hne
      · exact absurd h hne
      · exact hne
    rw [h]
    exact readWord32_entry_stable_same_table m (l2base m root i0) j j0 w2 hj hj0 hjne
  · have hy : entryAddr m root i0 j0 % 4096 ≤ 4092 := by
      rw [entryAddr_mod m root i0 j0 hj0]
      omega
    have hne2 : entryAddr m root i0 j0 / 4096 ≠ l2base m root i / 4096 := by
      rw [entryAddr_div m root i0 j0 hj0]
      have hvne : l2base m root i0 ≠ l2base m root i :=
        hWF.l1inj i0 i hi0 hi (fun hh => h hh.symm) hp0 hpi
      have ha1 : l2base m root i0 % 4096 = 0 := pageBaseOf_aligned _
      have ha2 : l2base m root i % 4096 = 0 := pageBaseOf_aligned _
      omega
    exact readWord32_entry_stable m (entryAddr m root i0 j0) w2 (l2base m root i) j
      (pageBaseOf_aligned _) hj hy hne2

theorem tw_target (m : Mem) (root N i0 j0 w2 : Nat) (hWF : WF m root N)
    (hi0 : i0 < 1024) (hp0 : l1e m root i0 % 2 = 1) (hj0 : j0 < 1024) :
    l2e (writeWord32 m (entryAddr m root i0 j0) w2) root i0 j0 = w2 % 4294967296 := by
  unfold l2e
  rw [tw_l2base m root N i0 j0 w2 hWF hi0 hp0 hj0 i0 hi0]
  show readWord32 (writeWord32 m (entryAddr m root i0 j0) w2) (entryAddr m root i0 j0) = _
  exact readWord32_writeWord32_same m _ w2

theorem tw_trw (m : Mem) (root N i0 j0 w2 : Nat) (hWF : WF m root N)
    (hi0 : i0 < 1024) (hp0 : l1e m root i0 % 2 = 1) (hj0 : j0 < 1024) :
    ∀ u, u < 4294967296 → ¬(l1IndexOf u = i0 ∧ l2IndexOf u = j0) →
      trw (writeWord32 m (entryAddr m root i0 j0) w2) root u = trw m root u := by
  intro u hu hne
  have hl1 := tw_l1e m root N i0 j0 w2 hWF hi0 hp0 hj0 (l1IndexOf u) (l1IndexOf_lt u hu)
  rw [trw_eq, trw_eq, hl1]
  by_cases hp1 : l1e m root (l1IndexOf u) % 2 = 0
  · rw [if_pos hp1, if_pos hp1]
  · have hl2 : l2e (writeWord32 m (entryAddr m root i0 j0) w2) root (l1IndexOf u)
        (l2IndexOf u) = l2e m root (l1IndexOf u) (l2IndexOf u) := by
      apply tw_l2e m root N i0 j0 w2 hWF hi0 hp0 hj0 (l1IndexOf u) (l1IndexOf_lt u hu)
        (by omega) (l2IndexOf u) (l2IndexOf_lt u)
      tauto
    rw [if_neg hp1, if_neg hp1, hl2]
    by_cases hp2 : l2e m root (l1IndexOf u) (l2IndexOf u) % 2 = 0
    · rw [if_pos hp2, if_pos hp2]
    · rw [if_neg hp2, if_neg hp2]
      unfold dframe
      rw [hl2]

theorem tw_hi (m : Mem) (root N i0 j0 w2 : Nat) (hWF : WF m root N)
    (hi0 : i0 < 1024) (hp0 : l1e m root i0 % 2 = 1) (hj0 : j0 < 1024) :
    ∀ b, 4096 * N ≤ b → writeWord32 m (entryAddr m root i0 j0) w2 b = 0 := by
  intro b hb
  have hlt : l2base m root i0 / 4096 < N := (hWF.l1frame i0 hi0 hp0).1
  have hmod := entryAddr_mod m root i0 j0 hj0
  have hdiv := entryAddr_div m root i0 j0 hj0
  rw [writeWord32_apply_hi m _ w2 b (by omega)]
  exact hWF.hi b hb

/-- Well-formedness transfers across a `bitOnly` change as long as the region
beyond the allocator's high-water mark stays zero: presence bits and frame
numbers are exactly what `bitOnly` preserves. -/
theorem WF_of_bitOnly (m m2 : Mem) (root N : Nat) (hWF : WF m root N)
    (h : bitOnly m m2) (hhi : ∀ b, 4096 * N ≤ b → m2 b = 0) : WF m2 root N := by
  have hl1p : ∀ i, i < 1024 → l1e m2 root i % 2 = l1e m root i % 2 := by
    intro i hi
    exact (bitOnly_readWord32 m m2 h (root + 4 * i) (by have := hWF.rootAligned; omega)).1
  have hl1f : ∀ i, i < 1024 → l2base m2 root i = l2base m root i := by
    intro i hi
    exact pageBaseOf_eq_of_div _ _
      (bitOnly_readWord32 m m2 h (root + 4 * i) (by have := hWF.rootAligned; omega)).2
  have hl2p : ∀ i, i < 1024 → ∀ j, j < 1024 →
      l2e m2 root i j % 2 = l2e m root i j % 2 ∧
      dframe m2 root i j = dframe m root i j := by
    intro i hi j hj
    have hx : (l2base m root i + 4 * j) % 4 = 0 := by
      have := pageBaseOf_aligned (l1e m root i)
      unfold l2base at *
      omega
    have hw := bitOnly_readWord32 m m2 h (l2base m root i + 4 * j) hx
    constructor
    · show readWord32 m2 (l2base m2 root i + 4 * j) % 2 = _
      rw [hl1f i hi]
      exact hw.1
    · show pageBaseOf (readWord32 m2 (l2base m2 root i + 4 * j)) = _
      rw [hl1f i hi]
      exact pageBaseOf_eq_of_div _ _ hw.2
  refine ⟨hWF.rootAligned, hWF.rootLt, hhi, ?_, ?_, ?_⟩
  · intro i hi hpi
    rw [hl1p i hi] at hpi
    rw [hl1f i hi]
    exact hWF.l1frame i hi hpi
  · intro i j hi hj hne hpi hpj
    rw [hl1p i hi] at hpi
    rw [hl1p j hj] at hpj
    rw [hl1f i hi, hl1f j hj]
    exact hWF.l1inj i j hi hj hne hpi hpj
  · intro i hi hpi j hj hpj
    rw [hl1p i hi] at hpi
    rw [(hl2p i hi j hj).1] at hpj
    rw [(hl2p i hi j hj).2]
    obtain ⟨c1, c2, c3⟩ := hWF.l2frame i hi hpi j hj hpj
    refine ⟨c1, c2, ?_⟩
    intro i2 hi2 hpi2
    rw [hl1p i2 hi2] at hpi2
    rw [hl1f i2 hi2]
    exact c3 i2 hi2 hpi2

/-- `SetWritableStatus` on a page absent at either level does nothing. -/
theorem setWritableStatus_unmapped (m : Mem) (root v : Nat) (w : Bool)
    (htr : trw m root v = Option.none) : setWritableStatus m root v w = m := by
  rcases trw_none_elim m root v htr with h | ⟨h1, h2⟩
  · have h' : readWord32 m (root + 4 * l1IndexOf v) % 2 = 0 := h
    simp only [setWritableStatus]
    rw [if_pos h']
  · have hbr1 : l1e m root (l1IndexOf v) = readWord32 m (root + 4 * l1IndexOf v) := rfl
    have h1' : ¬ readWord32 m (root + 4 * l1IndexOf v) % 2 = 0 := by omega
    have h2' : readWord32 m (pageBaseOf (readWord32 m (root + 4 * l1IndexOf v)) +
        4 * l2IndexOf v) % 2 = 0 := h2
    simp only [setWritableStatus]
    rw [if_neg h1', if_pos h2']

/-- `SetWritableStatus` on a mapped page rewrites exactly that page's L2 entry,
replacing its writable bit with `w`: the page stays mapped to the same physical
frame, all other pages translate unchanged, and well-formedness is kept. -/
theorem setWritableStatus_spec (m : Mem) (root N v : Nat) (w : Bool) (p : Nat)
    (wo : Bool) (hWF : WF m root N) (hv : v < 4294967296)
    (htr : trw m root v = some (p, wo)) :
    trw (setWritableStatus m root v w) root v = some (p, w) ∧
    (∀ u, u < 4294967296 → u / 4096 ≠ v / 4096 →
      trw (setWritableStatus m root v w) root u = trw m root u) ∧
    WF (setWritableStatus m root v w) root N := by
  obtain ⟨h1, h2, hp, hwo⟩ := trw_some_elim m root v p wo htr
  have hi0 : l1IndexOf v < 1024 := l1IndexOf_lt v hv
  have hj0 : l2IndexOf v < 1024 := l2IndexOf_lt v
  have he2lt : l2e m root (l1IndexOf v) (l2IndexOf v) < 4294967296 := readWord32_lt _ _
  have hrew : setWritableStatus m root v w =
      writeWord32 m (entryAddr m root (l1IndexOf v) (l2IndexOf v))
        (l2e m root (l1IndexOf v) (l2IndexOf v) -
          2 * (l2e m root (l1IndexOf v) (l2IndexOf v) / 2 % 2) +
          (if w then 2 else 0)) := by
    have hbr1 : l1e m root (l1IndexOf v) = readWord32 m (root + 4 * l1IndexOf v) := rfl
    have hbr2 : l2e m root (l1IndexOf v) (l2IndexOf v) =
        readWord32 m (pageBaseOf (readWord32 m (root + 4 * l1IndexOf v)) + 4 * l2IndexOf v) := rfl
    have h1' : ¬ readWord32 m (root + 4 * l1IndexOf v) % 2 = 0 := by omega
    have h2' : ¬ readWord32 m (pageBaseOf (readWord32 m (root + 4 * l1IndexOf v)) +
        4 * l2IndexOf v) % 2 = 0 := by omega
    simp only [setWritableStatus]
    rw [if_neg h1', if_neg h2']
    rfl
  set nv := l2e m root (l1IndexOf v) (l2IndexOf v) -
      2 * (l2e m root (l1IndexOf v) (l2IndexOf v) / 2 % 2) + (if w then 2 else 0) with hnv
  have hnvlt : nv < 4294967296 := by
    rw [hnv]; cases w <;> simp <;> omega
  have hnv2 : nv % 2 = l2e m root (l1IndexOf v) (l2IndexOf v) % 2 ∧
      nv / 4 = l2e m root (l1IndexOf v) (l2IndexOf v) / 4 := by
    rw [hnv]; cases w <;> simp <;> omega
  have hl1 := tw_l1e m root N (l1IndexOf v) (l2IndexOf v) nv hWF hi0 h1 hj0
  have htgt := tw_target m root N (l1IndexOf v) (l2IndexOf v) nv hWF hi0 h1 hj0
  rw [Nat.mod_eq_of_lt hnvlt] at htgt
  refine ⟨?_, ?_, ?_⟩
  · rw [hrew, trw_eq]
    rw [hl1 (l1IndexOf v) hi0]
    have h1ne : ¬ l1e m root (l1IndexOf v) % 2 = 0 := by omega
    rw [if_neg h1ne, htgt]
    have h2ne : ¬ nv % 2 = 0 := by omega
    rw [if_neg h2ne]
    have hdf : dframe (writeWord32 m (entryAddr m root (l1IndexOf v) (l2IndexOf v)) nv)
        root (l1IndexOf v) (l2IndexOf v) = dframe m root (l1IndexOf v) (l2IndexOf v) := by
      unfold dframe
      rw [htgt]
      exact pageBaseOf_eq_of_div _ _ (by omega)
    rw [hdf, ← hp]
    cases w with
    | false =>
      have : nv / 2 % 2 = 0 := by rw [hnv]; simp; omega
      rw [this]
      rfl
    | true =>
      have : nv / 2 % 2 = 1 := by rw [hnv]; simp; omega
      rw [this]
      rfl
  · intro u hu hupage
    rw [hrew]
    apply tw_trw m root N (l1IndexOf v) (l2IndexOf v) nv hWF hi0 h1 hj0 u hu
    intro ⟨hia, hib⟩
    exact hupage (page_eq_of_indices u v hia hib)
  · rw [hrew]
    refine WF_of_bitOnly m _ root N hWF ?_ ?_
    · rw [← hrew]
      exact setWritableStatus_bitOnly m root v w
    · exact tw_hi m root N (l1IndexOf v) (l2IndexOf v) nv hWF hi0 h1 hj0

/-- The page loop of `CmdWritable`: it keeps the tables well-formed, sets the
writable bit of every mapped page among the `cnt` pages it visits to `w`,
skips unmapped ones (their translation stays absent), and leaves the
translation of every other page exactly unchanged. -/
theorem setWritableLoop_spec : ∀ (cnt : Nat) (m : Mem) (root N a : Nat) (w : Bool),
    WF m root N → a + 4096 * cnt ≤ 4294967296 →
    WF (setWritableLoop m root a w cnt) root N ∧
    (∀ k, k < cnt →
      (trw m root (a + 4096 * k) = Option.none →
        trw (setWritableLoop m root a w cnt) root (a + 4096 * k) = Option.none) ∧
      (∀ p wo, trw m root (a + 4096 * k) = some (p, wo) →
        trw (setWritableLoop m root a w cnt) root (a + 4096 * k) = some (p, w))) ∧
    (∀ u, u < 4294967296 → (∀ k, k < cnt → u / 4096 ≠ (a + 4096 * k) / 4096) →
      trw (setWritableLoop m root a w cnt) root u = trw m root u) := by
  intro cnt
  induction cnt with
  | zero =>
    intro m root N a w hWF hbound
    exact ⟨hWF, fun k hk => absurd hk (by omega), fun u _ _ => rfl⟩
  | succ c ih =>
    intro m root N a w hWF hbound
    rw [setWritableLoop]
    have ha32 : a < 4294967296 := by omega
    cases htr : trw m root a with
    | none =>
      rw [setWritableStatus_unmapped m root a w htr]
      obtain ⟨iWF, iSet, iKeep⟩ := ih m root N (a + 4096) w hWF (by omega)
      refine ⟨iWF, ?_, ?_⟩
      · intro k hk
        cases k with
        | zero =>
          constructor
          · intro _
            have : trw (setWritableLoop m root (a + 4096) w c) root (a + 4096 * 0) =
                trw m root (a + 4096 * 0) := by
              apply iKeep (a + 4096 * 0) (by omega)
              intro k2 hk2
              omega
            rw [this, show a + 4096 * 0 = a by omega, htr]
          · intro p wo hsome
            rw [show a + 4096 * 0 = a by omega, htr] at hsome
            cases hsome
        | succ k2 =>
          have hsh : a + 4096 * (k2 + 1) = (a + 4096) + 4096 * k2 := by omega
          rw [hsh]
          exact iSet k2 (by omega)
      · intro u hu hkeep
        apply iKeep u hu
        intro k hk
        have := hkeep (k + 1) (by omega)
        omega
    | some pw =>
      obtain ⟨p0, w0⟩ := pw
      obtain ⟨sSet, sKeep, sWF⟩ := setWritableStatus_spec m root N a w p0 w0 hWF ha32 htr
      obtain ⟨iWF, iSet, iKeep⟩ := ih (setWritableStatus m root a w) root N (a + 4096) w
        sWF (by omega)
      refine ⟨iWF, ?_, ?_⟩
      · intro k hk
        cases k with
        | zero =>
          constructor
          · intro hnone
            rw [show a + 4096 * 0 = a by omega, htr] at hnone
            cases hnone
          · intro p wo hsome
            rw [show a + 4096 * 0 = a by omega, htr] at hsome
            obtain ⟨hpz, hwz⟩ := Prod.mk.inj (Option.some.inj hsome)
            have : trw (setWritableLoop (setWritableStatus m root a w) root (a + 4096) w c)
                root (a + 4096 * 0) = trw (setWritableStatus m root a w) root (a + 4096 * 0) := by
              apply iKeep (a + 4096 * 0) (by omega)
              intro k2 hk2
              omega
            rw [this, show a + 4096 * 0 = a by omega, sSet, hpz]
        | succ k2 =>
          have hsh : a + 4096 * (k2 + 1) = (a + 4096) + 4096 * k2 := by omega
          have hpage : (a + 4096 * (k2 + 1)) / 4096 ≠ a / 4096 := by omega
          have hstep := sKeep (a + 4096 * (k2 + 1)) (by omega) hpage
          constructor
          · intro hnone
            rw [hsh]
            rw [hsh] at hstep hnone
            exact (iSet k2 (by omega)).1 (by rw [hstep]; exact hnone)
          · intro p wo hsome
            rw [hsh]
            rw [hsh] at hstep hsome
            exact (iSet k2 (by omega)).2 p wo (by rw [hstep]; exact hsome)
      · intro u hu hkeep
        have h0 := hkeep 0 (by omega)
        rw [show a + 4096 * 0 = a by omega] at h0
        rw [iKeep u hu (fun k hk => by have := hkeep (k + 1) (by omega); omega)]
        exact sKeep u hu h0

/-- Translation lookup in the memory a command outcome left behind. -/
def Out.memTrw : Out → Nat → Nat → Option (Nat × Bool)
  | .ok s _, root, v => trw s.mem root v
  | .quotaFail s _, root, v => trw s.mem root v
  | .crash _, _, _ => Option.none

/-- C6 counterexample: the claim fails on the code at a concrete input.  On
`exSt1`, `writable 0x800 0x1000 0` visits `0x1000 / kPageSize = 1` page
starting at the page containing `0x800` — so it clears the writable bit of
page 0 (its translation flips from writable to read-only) — even though no
page is fully covered by the range `[0x800, 0x1800)`. -/
theorem c6_counterexample :
    (cmdWritable exSt1 [2048, 4096, 0]).memTrw 0 0 = some (8192, false) ∧
    trw exSt1.mem 0 0 = some (8192, true) ∧
    (∀ pg : Nat, ¬ (2048 ≤ 4096 * pg ∧ 4096 * pg + 4096 ≤ 2048 + 4096)) := by
  refine ⟨by decide, by decide, ?_⟩
  intro pg
  omega

/-- C6 as amended: `writable addr byteCount flag` visits the
`byteCount / kPageSize` pages containing `addr + k * kPageSize`
(`k = 0, 1, …`) — for page-aligned `addr` these are exactly the pages fully
covered by `[addr, addr + byteCount)`.  Each visited page that is mapped gets
its writable bit set to `flag ≠ 0`; absent pages are skipped silently and stay
absent.  The command allocates nothing (allocator and page counter are
untouched), prints nothing, changes memory only in writable bits of aligned
entry words (`bitOnly`) — so no present bit and no frame number anywhere
changes — and, over well-formed tables, leaves the translation of every
unvisited page exactly unchanged. -/
theorem c6_amended_writable_page_stepping :
    (∀ (s : St) (a cnt fl : Nat) (rest : List Nat),
      (cmdWritable s (a :: cnt :: fl :: rest)).framesOf = some s.nextFrame ∧
      (cmdWritable s (a :: cnt :: fl :: rest)).pagesOf = some s.allocated_pages ∧
      (cmdWritable s (a :: cnt :: fl :: rest)).events = []) ∧
    (∀ (s : St) (a cnt fl : Nat) (rest : List Nat) (s2 : St) (ev : List Event),
      cmdWritable s (a :: cnt :: fl :: rest) = .ok s2 ev →
      bitOnly s.mem s2.mem ∧
      ∀ root v, root % 4 = 0 →
        (trw s.mem root v = Option.none → trw s2.mem root v = Option.none) ∧
        (∀ p w, trw s.mem root v = some (p, w) → ∃ w2, trw s2.mem root v = some (p, w2))) ∧
    (∀ (s : St) (a cnt fl : Nat) (rest : List Nat) (s2 : St) (ev : List Event) (N : Nat),
      cmdWritable s (a :: cnt :: fl :: rest) = .ok s2 ev →
      WF s.mem s.mmu_pmcb.page_table_base N →
      a + 4096 * (cnt / 4096) ≤ 4294967296 →
      (∀ k, k < cnt / 4096 →
        (trw s.mem s.mmu_pmcb.page_table_base (a + 4096 * k) = Option.none →
          trw s2.mem s.mmu_pmcb.page_table_base (a + 4096 * k) = Option.none) ∧
        (∀ p wo, trw s.mem s.mmu_pmcb.page_table_base (a + 4096 * k) = some (p, wo) →
          trw s2.mem s.mmu_pmcb.page_table_base (a + 4096 * k) =
            some (p, decide (fl ≠ 0)))) ∧
      (∀ u, u < 4294967296 → (∀ k, k < cnt / 4096 → u / 4096 ≠ (a + 4096 * k) / 4096) →
        trw s2.mem s.mmu_pmcb.page_table_base u = trw s.mem s.mmu_pmcb.page_table_base u)) := by
  refine ⟨?_, ?_, ?_⟩
  · intro s a cnt fl rest
    exact ⟨rfl, rfl, rfl⟩
  · intro s a cnt fl rest s2 ev h
    simp only [cmdWritable] at h
    obtain ⟨h1, _⟩ := Out.ok.inj h
    have hmem : s2.mem = setWritableLoop s.mem s.mmu_pmcb.page_table_base a
        (decide (fl ≠ 0)) (cnt / 4096) := by
      rw [← h1]
    rw [hmem]
    constructor
    · exact setWritableLoop_bitOnly _ _ _ _ _
    · intro root v hroot
      exact bitOnly_trw _ _ (setWritableLoop_bitOnly _ _ _ _ _) root v hroot
  · intro s a cnt fl rest s2 ev N h hWF hbound
    simp only [cmdWritable] at h
    obtain ⟨h1, _⟩ := Out.ok.inj h
    have hmem : s2.mem = setWritableLoop s.mem s.mmu_pmcb.page_table_base a
        (decide (fl ≠ 0)) (cnt / 4096) := by
      rw [← h1]
    rw [hmem]
    obtain ⟨_, hset, hkeep⟩ := setWritableLoop_spec (cnt / 4096) s.mem
      s.mmu_pmcb.page_table_base N a (decide (fl ≠ 0)) hWF hbound
    exact ⟨hset, hkeep⟩

/-! Termination of the put/fill/copy retry loops (C9).  The key function
`firstNW` finds the first byte of a request that is not writable-mapped — the
position where `put_bytes` / the fill inner loop will stop.  The loop makes
progress because each allocation maps the faulting page, pushing the first
non-writable position strictly into a later page. -/

/-- Position of the first byte among `a, a+1, …, a+n-1` whose translation is
not present-and-writable, together with the kind of fault it causes:
`false` = unmapped (PageFault), `true` = mapped read-only
(WritePermissionFault).  `none` when all `n` bytes are writable-mapped. -/
def firstNW (m : Mem) (root a : Nat) : Nat → Option (Nat × Bool)
  | 0 => Option.none
  | n + 1 =>
    match trw m root a with
    | Option.none => some (0, false)
    | some (_, w) =>
      if w then (firstNW m root (a + 1) n).map (fun q => (q.1 + 1, q.2))
      else some (0, true)

/-- `firstNW` depends only on the translations of the scanned range. -/
theorem firstNW_congr (m1 m2 : Mem) (root : Nat) :
    ∀ (n a : Nat), (∀ k, k < n → trw m1 root (a + k) = trw m2 root (a + k)) →
    firstNW m1 root a n = firstNW m2 root a n := by
  intro n
  induction n with
  | zero => intro a _; rfl
  | succ c ih =>
    intro a h
    have h0 : trw m1 root a = trw m2 root a := by
      have := h 0 (by omega)
      simpa using this
    rw [firstNW, firstNW, h0]
    cases trw m2 root a with
    | none => rfl
    | some pw =>
      obtain ⟨p, w⟩ := pw
      cases w with
      | false => rfl
      | true =>
        simp only [if_pos]
        rw [ih (a + 1) (fun k hk => by
          have := h (k + 1) (by omega)
          rw [show a + (k + 1) = a + 1 + k by omega] at this
          exact this)]

/-- `firstNW` returns `none` exactly when every scanned byte is
writable-mapped. -/
theorem firstNW_none_iff (m : Mem) (root : Nat) :
    ∀ (n a : Nat), firstNW m root a n = Option.none ↔
      ∀ k, k < n → ∃ q, trw m root (a + k) = some (q, true) := by
  intro n
  induction n with
  | zero =>
    intro a
    constructor
    · intro _ k hk
      exact absurd hk (by omega)
    · intro _
      rfl
  | succ c ih =>
    intro a
    rw [firstNW]
    cases htr : trw m root a with
    | none =>
      simp only
      constructor
      · intro h; cases h
      · intro h
        obtain ⟨q, hq⟩ := h 0 (by omega)
        rw [show a + 0 = a by omega, htr] at hq
        cases hq
    | some pw =>
      obtain ⟨p, w⟩ := pw
      cases w with
      | false =>
        simp only [if_neg (by simp : ¬ (false = true))]
        constructor
        · intro h; cases h
        · intro h
          obtain ⟨q, hq⟩ := h 0 (by omega)
          rw [show a + 0 = a by omega, htr] at hq
          obtain ⟨_, hw⟩ := Prod.mk.inj (Option.some.inj hq)
          cases hw
      | true =>
        simp only [if_pos, Option.map_eq_none', ih (a + 1)]
        constructor
        · intro h k hk
          cases k with
          | zero => exact ⟨p, by rw [show a + 0 = a by omega, htr]⟩
          | succ k2 =>
            have := h k2 (by omega)
            rw [show a + 1 + k2 = a + (k2 + 1) by omega] at this
            exact this
        · intro h k hk
          have := h (k + 1) (by omega)
          rw [show a + (k + 1) = a + 1 + k by omega] at this
          exact this

/-- What a `some` result of `firstNW` means: the index is in range, every
earlier byte is writable-mapped, and the byte at the index is unmapped
(`false`) or mapped read-only (`true`). -/
theorem firstNW_some_elim (m : Mem) (root : Nat) :
    ∀ (n a i : Nat) (fl : Bool), firstNW m root a n = some (i, fl) →
      i < n ∧ (∀ k, k < i → ∃ q, trw m root (a + k) = some (q, true)) ∧
      (fl = false → trw m root (a + i) = Option.none) ∧
      (fl = true → ∃ p, trw m root (a + i) = some (p, false)) := by
  intro n
  induction n with
  | zero => intro a i fl h; cases h
  | succ c ih =>
    intro a i fl h
    rw [firstNW] at h
    cases htr : trw m root a with
    | none =>
      rw [htr] at h
      obtain ⟨hi, hfl⟩ := Prod.mk.inj (Option.some.inj h)
      subst hi; subst hfl
      refine ⟨by omega, ?_, ?_, ?_⟩
      · intro k hk
        exact absurd hk (by omega)
      · intro _
        rw [show a + 0 = a by omega, htr]
      · intro hc
        cases hc
    | some pw =>
      obtain ⟨p, w⟩ := pw
      rw [htr] at h
      cases w with
      | false =>
        simp only [if_neg (by simp : ¬ (false = true))] at h
        obtain ⟨hi, hfl⟩ := Prod.mk.inj (Option.some.inj h)
        subst hi; subst hfl
        refine ⟨by omega, ?_, ?_, ?_⟩
        · intro k hk
          exact absurd hk (by omega)
        · intro hc
          cases hc
        · intro _
          exact ⟨p, by rw [show a + 0 = a by omega, htr]⟩
      | true =>
        simp only [if_pos, Option.map_eq_some'] at h
        obtain ⟨q, hq, hqe⟩ := h
        obtain ⟨hi, hfl⟩ := Prod.mk.inj hqe
        obtain ⟨h1, h2, h3, h4⟩ := ih (a + 1) q.1 q.2 (by rw [hq])
        subst hi; subst hfl
        refine ⟨by omega, ?_, ?_, ?_⟩
        · intro k hk
          cases k with
          | zero => exact ⟨p, by rw [show a + 0 = a by omega, htr]⟩
          | succ k2 =>
            have := h2 k2 (by omega)
            rw [show a + 1 + k2 = a + (k2 + 1) by omega] at this
            exact this
        · intro hf
          have := h3 hf
          rw [show a + 1 + q.1 = a + (q.1 + 1) by omega] at this
          exact this
        · intro hf
          have := h4 hf
          rw [show a + 1 + q.1 = a + (q.1 + 1) by omega] at this
          exact this

/-- Translations of two addresses in the same page: absent together, and
present with the same writable bit. -/
theorem trw_page_cases (m : Mem) (root u v : Nat) (h : u / 4096 = v / 4096) :
    (trw m root u = Option.none → trw m root v = Option.none) ∧
    (∀ p w, trw m root u = some (p, w) → ∃ p2, trw m root v = some (p2, w)) := by
  obtain ⟨h1, h2⟩ := indices_eq_of_page u v h
  rw [trw_eq, trw_eq, h1, h2]
  constructor
  · intro hn
    by_cases hp1 : l1e m root (l1IndexOf v) % 2 = 0
    · rw [if_pos hp1]
    · rw [if_neg hp1] at hn ⊢
      by_cases hp2 : l2e m root (l1IndexOf v) (l2IndexOf v) % 2 = 0
      · rw [if_pos hp2]
      · rw [if_neg hp2] at hn
        cases hn
  · intro p w hs
    by_cases hp1 : l1e m root (l1IndexOf v) % 2 = 0
    · rw [if_pos hp1] at hs
      cases hs
    · rw [if_neg hp1] at hs ⊢
      by_cases hp2 : l2e m root (l1IndexOf v) (l2IndexOf v) % 2 = 0
      · rw [if_pos hp2] at hs
        cases hs
      · rw [if_neg hp2] at hs ⊢
        obtain ⟨_, hw⟩ := Prod.mk.inj (Option.some.inj hs)
        exact ⟨_, by rw [hw]⟩

/-- One unfolding step of `put_bytes` in virtual mode. -/
theorem putBytes_cons (m : Mem) (pm : PMCB) (a b : Nat) (bs : List Nat)
    (hvm : pm.vm_enabled = true) :
    putBytes m pm a (b :: bs) =
      match trw m pm.page_table_base a with
      | Option.none =>
        .pageFault m { pm with next_vaddress := a, operation_state := .write }
      | some (p, w) =>
        if w then putBytes (writeB m p b) pm (a + 1) bs
        else .permFault m { pm with next_vaddress := a, operation_state := .write } := by
  simp only [putBytes]
  rw [if_pos hvm]

/-- Classification of `put_bytes` over well-formed tables: it succeeds when
every requested byte is writable-mapped, and otherwise stops with the fault
`firstNW` predicts, with the faulting address in the progress marker.  In all
cases the data-only writes it performed keep the tables well-formed and every
translation unchanged. -/
theorem putBytes_spec (root N : Nat) :
    ∀ (bs : List Nat) (m : Mem) (a : Nat) (pm : PMCB),
    WF m root N → pm.vm_enabled = true → pm.page_table_base = root →
    a + bs.length ≤ 4294967296 →
    (firstNW m root a bs.length = Option.none →
      ∃ m2, putBytes m pm a bs =
          MemOp.ok m2
            { pm with next_vaddress := a + bs.length, operation_state := OpState.write } ∧
        WF m2 root N ∧ ∀ u, u < 4294967296 → trw m2 root u = trw m root u) ∧
    (∀ i, firstNW m root a bs.length = some (i, false) →
      ∃ m2, putBytes m pm a bs =
          MemOp.pageFault m2
            { pm with next_vaddress := a + i, operation_state := OpState.write } ∧
        WF m2 root N ∧ ∀ u, u < 4294967296 → trw m2 root u = trw m root u) ∧
    (∀ i, firstNW m root a bs.length = some (i, true) →
      ∃ m2, putBytes m pm a bs =
          MemOp.permFault m2
            { pm with next_vaddress := a + i, operation_state := OpState.write } ∧
        WF m2 root N ∧ ∀ u, u < 4294967296 → trw m2 root u = trw m root u) := by
  intro bs
  induction bs with
  | nil =>
    intro m a pm hWF hvm hroot hbound
    refine ⟨?_, ?_, ?_⟩
    · intro _
      exact ⟨m, rfl, hWF, fun u _ => rfl⟩
    · intro i h
      exact Option.noConfusion h
    · intro i h
      exact Option.noConfusion h
  | cons b bs ih =>
    intro m a pm hWF hvm hroot hbound
    subst hroot
    simp only [List.length_cons] at hbound ⊢
    have ha32 : a < 4294967296 := by omega
    have hput := putBytes_cons m pm a b bs hvm
    rw [firstNW]
    cases htr : trw m pm.page_table_base a with
    | none =>
      rw [htr] at hput
      refine ⟨?_, ?_, ?_⟩
      · intro h
        exact Option.noConfusion h
      · intro i h
        have h2 : some ((0 : Nat), false) = some (i, false) := h
        obtain ⟨hi, _⟩ := Prod.mk.inj (Option.some.inj h2)
        subst hi
        refine ⟨m, ?_, hWF, fun u _ => rfl⟩
        rw [hput]
        rfl
      · intro i h
        have h2 : some ((0 : Nat), false) = some (i, true) := h
        obtain ⟨_, hw⟩ := Prod.mk.inj (Option.some.inj h2)
        cases hw
    | some pw =>
      obtain ⟨p, w⟩ := pw
      rw [htr] at hput
      cases w with
      | false =>
        refine ⟨?_, ?_, ?_⟩
        · intro h
          exact Option.noConfusion h
        · intro i h
          have h2 : some ((0 : Nat), true) = some (i, false) := h
          obtain ⟨_, hw⟩ := Prod.mk.inj (Option.some.inj h2)
          cases hw
        · intro i h
          have h2 : some ((0 : Nat), true) = some (i, true) := h
          obtain ⟨hi, _⟩ := Prod.mk.inj (Option.some.inj h2)
          subst hi
          refine ⟨m, ?_, hWF, fun u _ => rfl⟩
          rw [hput]
          rfl
      | true =>
        have hWF2 : WF (writeB m p b) pm.page_table_base N :=
          WF_writeB_data m pm.page_table_base N a p true hWF ha32 htr b
        have hpres : ∀ u, u < 4294967296 →
            trw (writeB m p b) pm.page_table_base u = trw m pm.page_table_base u :=
          trw_writeB_data m pm.page_table_base N a p true hWF ha32 htr b
        have hcongr : firstNW (writeB m p b) pm.page_table_base (a + 1) bs.length =
            firstNW m pm.page_table_base (a + 1) bs.length :=
          firstNW_congr _ _ pm.page_table_base bs.length (a + 1)
            (fun k hk => hpres (a + 1 + k) (by omega))
        obtain ⟨ih1, ih2, ih3⟩ :=
          ih (writeB m p b) (a + 1) pm hWF2 hvm rfl (by omega)
        refine ⟨?_, ?_, ?_⟩
        · intro h
          have h2 : (firstNW m pm.page_table_base (a + 1) bs.length).map
              (fun q => (q.1 + 1, q.2)) = Option.none := h
          rw [Option.map_eq_none'] at h2
          obtain ⟨m2, hok, hWF3, hpres3⟩ := ih1 (hcongr.trans h2)
          have hnv : a + 1 + bs.length = a + (bs.length + 1) := by omega
          rw [hnv] at hok
          refine ⟨m2, ?_, hWF3, fun u hu => (hpres3 u hu).trans (hpres u hu)⟩
          rw [hput]
          exact hok
        · intro i h
          have h2 : (firstNW m pm.page_table_base (a + 1) bs.length).map
              (fun q => (q.1 + 1, q.2)) = some (i, false) := h
          rw [Option.map_eq_some'] at h2
          obtain ⟨⟨i1, fl1⟩, hq, hqe⟩ := h2
          obtain ⟨hi, hf⟩ := Prod.mk.inj hqe
          subst hf
          subst hi
          obtain ⟨m2, hpf, hWF3, hpres3⟩ := ih2 i1 (hcongr.trans hq)
          have hnv : a + 1 + i1 = a + (i1 + 1) := by omega
          rw [hnv] at hpf
          refine ⟨m2, ?_, hWF3, fun u hu => (hpres3 u hu).trans (hpres u hu)⟩
          rw [hput]
          exact hpf
        · intro i h
          have h2 : (firstNW m pm.page_table_base (a + 1) bs.length).map
              (fun q => (q.1 + 1, q.2)) = some (i, true) := h
          rw [Option.map_eq_some'] at h2
          obtain ⟨⟨i1, fl1⟩, hq, hqe⟩ := h2
          obtain ⟨hi, hf⟩ := Prod.mk.inj hqe
          subst hf
          subst hi
          obtain ⟨m2, hpf, hWF3, hpres3⟩ := ih3 i1 (hcongr.trans hq)
          have hnv : a + 1 + i1 = a + (i1 + 1) := by omega
          rw [hnv] at hpf
          refine ⟨m2, ?_, hWF3, fun u hu => (hpres3 u hu).trans (hpres u hu)⟩
          rw [hput]
          exact hpf

/-- One unfolding step of the fill inner loop in virtual mode. -/
theorem fillInner_succ (m : Mem) (pm : PMCB) (a val k : Nat)
    (hvm : pm.vm_enabled = true) :
    fillInner m pm a val (k + 1) =
      match trw m pm.page_table_base a with
      | Option.none =>
        .pageFault m { pm with next_vaddress := a, operation_state := .write }
      | some (p, w) =>
        if w then
          fillInner (writeB m p val)
            { pm with next_vaddress := a + 1, operation_state := .write } (a + 1) val k
        else .permFault m { pm with next_vaddress := a, operation_state := .write } := by
  simp only [fillInner]
  rw [if_pos hvm]

/-- Classification of the fill inner loop (a run of `put_byte` calls) over
well-formed tables, mirroring `putBytes_spec`: all `k` bytes writable-mapped
means success; otherwise it stops with the fault `firstNW` predicts, the
faulting address in the progress marker.  Data writes preserve
well-formedness and all translations. -/
theorem fillInner_spec (root N : Nat) :
    ∀ (k : Nat) (m : Mem) (a val : Nat) (pm : PMCB),
    WF m root N → pm.vm_enabled = true → pm.page_table_base = root →
    a + k ≤ 4294967296 →
    (firstNW m root a k = Option.none →
      ∃ m2 pm2, fillInner m pm a val k = MemOp.ok m2 pm2 ∧
        WF m2 root N ∧ ∀ u, u < 4294967296 → trw m2 root u = trw m root u) ∧
    (∀ i, firstNW m root a k = some (i, false) →
      ∃ m2, fillInner m pm a val k =
          MemOp.pageFault m2
            { pm with next_vaddress := a + i, operation_state := OpState.write } ∧
        WF m2 root N ∧ ∀ u, u < 4294967296 → trw m2 root u = trw m root u) ∧
    (∀ i, firstNW m root a k = some (i, true) →
      ∃ m2, fillInner m pm a val k =
          MemOp.permFault m2
            { pm with next_vaddress := a + i, operation_state := OpState.write } ∧
        WF m2 root N ∧ ∀ u, u < 4294967296 → trw m2 root u = trw m root u) := by
  intro k
  induction k with
  | zero =>
    intro m a val pm hWF hvm hroot hbound
    refine ⟨?_, ?_, ?_⟩
    · intro _
      exact ⟨m, pm, rfl, hWF, fun u _ => rfl⟩
    · intro i h
      exact Option.noConfusion h
    · intro i h
      exact Option.noConfusion h
  | succ c ih =>
    intro m a val pm hWF hvm hroot hbound
    subst hroot
    have ha32 : a < 4294967296 := by omega
    have hput := fillInner_succ m pm a val c hvm
    rw [firstNW]
    cases htr : trw m pm.page_table_base a with
    | none =>
      rw [htr] at hput
      refine ⟨?_, ?_, ?_⟩
      · intro h
        exact Option.noConfusion h
      · intro i h
        have h2 : some ((0 : Nat), false) = some (i, false) := h
        obtain ⟨hi, _⟩ := Prod.mk.inj (Option.some.inj h2)
        subst hi
        refine ⟨m, ?_, hWF, fun u _ => rfl⟩
        rw [hput]
        rfl
      · intro i h
        have h2 : some ((0 : Nat), false) = some (i, true) := h
        obtain ⟨_, hw⟩ := Prod.mk.inj (Option.some.inj h2)
        cases hw
    | some pw =>
      obtain ⟨p, w⟩ := pw
      rw [htr] at hput
      cases w with
      | false =>
        refine ⟨?_, ?_, ?_⟩
        · intro h
          exact Option.noConfusion h
        · intro i h
          have h2 : some ((0 : Nat), true) = some (i, false) := h
          obtain ⟨_, hw⟩ := Prod.mk.inj (Option.some.inj h2)
          cases hw
        · intro i h
          have h2 : some ((0 : Nat), true) = some (i, true) := h
          obtain ⟨hi, _⟩ := Prod.mk.inj (Option.some.inj h2)
          subst hi
          refine ⟨m, ?_, hWF, fun u _ => rfl⟩
          rw [hput]
          rfl
      | true =>
        have hWF2 : WF (writeB m p val) pm.page_table_base N :=
          WF_writeB_data m pm.page_table_base N a p true hWF ha32 htr val
        have hpres : ∀ u, u < 4294967296 →
            trw (writeB m p val) pm.page_table_base u = trw m pm.page_table_base u :=
          trw_writeB_data m pm.page_table_base N a p true hWF ha32 htr val
        have hcongr : firstNW (writeB m p val) pm.page_table_base (a + 1) c =
            firstNW m pm.page_table_base (a + 1) c :=
          firstNW_congr _ _ pm.page_table_base c (a + 1)
            (fun k2 hk => hpres (a + 1 + k2) (by omega))
        obtain ⟨ih1, ih2, ih3⟩ := ih (writeB m p val) (a + 1) val
          { pm with next_vaddress := a + 1, operation_state := OpState.write }
          hWF2 hvm rfl (by omega)
        refine ⟨?_, ?_, ?_⟩
        · intro h
          have h2 : (firstNW m pm.page_table_base (a + 1) c).map
              (fun q => (q.1 + 1, q.2)) = Option.none := h
          rw [Option.map_eq_none'] at h2
          obtain ⟨m2, pm2, hok, hWF3, hpres3⟩ := ih1 (hcongr.trans h2)
          refine ⟨m2, pm2, ?_, hWF3, fun u hu => (hpres3 u hu).trans (hpres u hu)⟩
          rw [hput]
          exact hok
        · intro i h
          have h2 : (firstNW m pm.page_table_base (a + 1) c).map
              (fun q => (q.1 + 1, q.2)) = some (i, false) := h
          rw [Option.map_eq_some'] at h2
          obtain ⟨⟨i1, fl1⟩, hq, hqe⟩ := h2
          obtain ⟨hi, hf⟩ := Prod.mk.inj hqe
          subst hf
          subst hi
          obtain ⟨m2, hpf, hWF3, hpres3⟩ := ih2 i1 (hcongr.trans hq)
          have hnv : a + 1 + i1 = a + (i1 + 1) := by omega
          rw [hnv] at hpf
          refine ⟨m2, ?_, hWF3, fun u hu => (hpres3 u hu).trans (hpres u hu)⟩
          rw [hput]
          exact hpf
        · intro i h
          have h2 : (firstNW m pm.page_table_base (a + 1) c).map
              (fun q => (q.1 + 1, q.2)) = some (i, true) := h
          rw [Option.map_eq_some'] at h2
          obtain ⟨⟨i1, fl1⟩, hq, hqe⟩ := h2
          obtain ⟨hi, hf⟩ := Prod.mk.inj hqe
          subst hf
          subst hi
          obtain ⟨m2, hpf, hWF3, hpres3⟩ := ih3 i1 (hcongr.trans hq)
          have hnv : a + 1 + i1 = a + (i1 + 1) := by omega
          rw [hnv] at hpf
          refine ⟨m2, ?_, hWF3, fun u hu => (hpres3 u hu).trans (hpres u hu)⟩
          rw [hput]
          exact hpf

/-- `AllocateAndMapPage` when the L1 entry is already present: one frame is
allocated and installed as the L2 entry. -/
theorem allocMap_eq_caseA (s : St) (v : Nat)
    (h1 : ¬ readWord32 s.mem (s.vmem_pmcb.page_table_base + 4 * l1IndexOf v) % 2 = 0)
    (h2 : ¬ readWord32 s.mem
        (pageBaseOf (readWord32 s.mem (s.vmem_pmcb.page_table_base + 4 * l1IndexOf v)) +
          4 * l2IndexOf v) % 2 = 1) :
    allocateAndMapPage s v = some { s with
      nextFrame := s.nextFrame + 1,
      mem := writeWord32 s.mem
        (pageBaseOf (readWord32 s.mem (s.vmem_pmcb.page_table_base + 4 * l1IndexOf v)) +
          4 * l2IndexOf v) (4096 * s.nextFrame + 3) } := by
  simp only [allocateAndMapPage, allocateFrame]
  rw [if_neg h1]
  rw [if_neg h2]

/-- `AllocateAndMapPage` when the L1 entry is absent: two frames are allocated,
the first installed as the L1 entry, the second as the L2 entry of the fresh
table. -/
theorem allocMap_eq_caseB (s : St) (v : Nat)
    (h1 : readWord32 s.mem (s.vmem_pmcb.page_table_base + 4 * l1IndexOf v) % 2 = 0)
    (h2 : ¬ readWord32
        (writeWord32 s.mem (s.vmem_pmcb.page_table_base + 4 * l1IndexOf v)
          (4096 * s.nextFrame + 3))
        (pageBaseOf (4096 * s.nextFrame + 3) + 4 * l2IndexOf v) % 2 = 1) :
    allocateAndMapPage s v = some { s with
      nextFrame := s.nextFrame + 1 + 1,
      mem := writeWord32
        (writeWord32 s.mem (s.vmem_pmcb.page_table_base + 4 * l1IndexOf v)
          (4096 * s.nextFrame + 3))
        (pageBaseOf (4096 * s.nextFrame + 3) + 4 * l2IndexOf v)
        (4096 * (s.nextFrame + 1) + 3) } := by
  simp only [allocateAndMapPage, allocateFrame]
  rw [if_pos h1]
  rw [if_neg h2]

/-- Effect of installing a fresh data frame as L2 entry `(i0, j0)` of an
existing table (case A of `AllocateAndMapPage`): the tables stay well-formed
with one more frame handed out, translations of other pages are untouched and
the whole page of `(i0, j0)` becomes writable-mapped. -/
theorem allocA_mem (m : Mem) (root N i0 j0 : Nat) (hWF : WF m root N)
    (hi0 : i0 < 1024) (hj0 : j0 < 1024) (hNb : N + 2 ≤ 1048576)
    (h1 : l1e m root i0 % 2 = 1) (h2 : l2e m root i0 j0 % 2 = 0) :
    WF (writeWord32 m (entryAddr m root i0 j0) (4096 * N + 3)) root (N + 1) ∧
    (∀ u, u < 4294967296 → ¬ (l1IndexOf u = i0 ∧ l2IndexOf u = j0) →
      trw (writeWord32 m (entryAddr m root i0 j0) (4096 * N + 3)) root u =
        trw m root u) ∧
    (∀ u, u < 4294967296 → l1IndexOf u = i0 → l2IndexOf u = j0 →
      ∃ q, trw (writeWord32 m (entryAddr m root i0 j0) (4096 * N + 3)) root u =
        some (q, true)) := by
  have hroot4 : root % 4096 = 0 := hWF.rootAligned
  have hrootN : root / 4096 < N := hWF.rootLt
  have hpbt : pageBaseOf (4096 * N + 3) = 4096 * N := by
    unfold pageBaseOf
    omega
  have hl1 := tw_l1e m root N i0 j0 (4096 * N + 3) hWF hi0 h1 hj0
  have hl2b := tw_l2base m root N i0 j0 (4096 * N + 3) hWF hi0 h1 hj0
  have hl2 := tw_l2e m root N i0 j0 (4096 * N + 3) hWF hi0 h1 hj0
  have hhi := tw_hi m root N i0 j0 (4096 * N + 3) hWF hi0 h1 hj0
  have htgt' : l2e (writeWord32 m (entryAddr m root i0 j0) (4096 * N + 3)) root i0 j0 =
      4096 * N + 3 := by
    rw [tw_target m root N i0 j0 (4096 * N + 3) hWF hi0 h1 hj0]
    omega
  refine ⟨?_, ?_, ?_⟩
  · refine ⟨hroot4, by omega, ?_, ?_, ?_, ?_⟩
    · intro b hb
      exact hhi b (by omega)
    · intro i hi hpi
      rw [hl1 i hi] at hpi
      rw [hl2b i hi]
      obtain ⟨c1, c2⟩ := hWF.l1frame i hi hpi
      exact ⟨by omega, c2⟩
    · intro i j hi hj hne hpi hpj
      rw [hl1 i hi] at hpi
      rw [hl1 j hj] at hpj
      rw [hl2b i hi, hl2b j hj]
      exact hWF.l1inj i j hi hj hne hpi hpj
    · intro i hi hpi j hj hpj
      rw [hl1 i hi] at hpi
      by_cases hij : i = i0 ∧ j = j0
      · obtain ⟨hii, hjj⟩ := hij
        rw [hii, hjj]
        have hdf : dframe (writeWord32 m (entryAddr m root i0 j0) (4096 * N + 3))
            root i0 j0 = 4096 * N := by
          unfold dframe
          rw [htgt', hpbt]
        rw [hdf]
        refine ⟨by omega, by omega, ?_⟩
        intro i2 hi2 hpi2
        rw [hl1 i2 hi2] at hpi2
        rw [hl2b i2 hi2]
        obtain ⟨d1, _⟩ := hWF.l1frame i2 hi2 hpi2
        have d2 : l2base m root i2 % 4096 = 0 := pageBaseOf_aligned _
        omega
      · have hne2 : i ≠ i0 ∨ j ≠ j0 := by tauto
        have hl2eq := hl2 i hi hpi j hj hne2
        rw [hl2eq] at hpj
        have hdf : dframe (writeWord32 m (entryAddr m root i0 j0) (4096 * N + 3))
            root i j = dframe m root i j := by
          unfold dframe
          rw [hl2eq]
        rw [hdf]
        obtain ⟨c1, c2, c3⟩ := hWF.l2frame i hi hpi j hj hpj
        refine ⟨by omega, c2, ?_⟩
        intro i2 hi2 hpi2
        rw [hl1 i2 hi2] at hpi2
        rw [hl2b i2 hi2]
        exact c3 i2 hi2 hpi2
  · intro u hu hne
    exact tw_trw m root N i0 j0 (4096 * N + 3) hWF hi0 h1 hj0 u hu hne
  · intro u hu hiu hju
    rw [trw_eq, hiu, hju, hl1 i0 hi0]
    rw [if_neg (show ¬ (l1e m root i0 % 2 = 0) by omega)]
    rw [htgt']
    rw [if_neg (show ¬ ((4096 * N + 3) % 2 = 0) by omega)]
    have hb : (4096 * N + 3) / 2 % 2 = 1 := by omega
    rw [hb]
    exact ⟨_, rfl⟩

/-- Effect of allocating a fresh (zeroed) second-level table plus a fresh data
frame (case B of `AllocateAndMapPage`): the tables stay well-formed with two
more frames handed out, the fresh table's other slots stay absent (its words
are still zero), translations of other pages are untouched and the whole page
of `(i0, j0)` becomes writable-mapped. -/
theorem allocB_mem (m : Mem) (root N i0 j0 : Nat) (hWF : WF m root N)
    (hi0 : i0 < 1024) (hj0 : j0 < 1024) (hNb : N + 2 ≤ 1048576)
    (h1 : l1e m root i0 % 2 = 0) :
    readWord32 (writeWord32 m (root + 4 * i0) (4096 * N + 3))
      (pageBaseOf (4096 * N + 3) + 4 * j0) = 0 ∧
    WF (writeWord32 (writeWord32 m (root + 4 * i0) (4096 * N + 3))
        (pageBaseOf (4096 * N + 3) + 4 * j0) (4096 * (N + 1) + 3)) root (N + 2) ∧
    (∀ u, u < 4294967296 → ¬ (l1IndexOf u = i0 ∧ l2IndexOf u = j0) →
      trw (writeWord32 (writeWord32 m (root + 4 * i0) (4096 * N + 3))
          (pageBaseOf (4096 * N + 3) + 4 * j0) (4096 * (N + 1) + 3)) root u =
        trw m root u) ∧
    (∀ u, u < 4294967296 → l1IndexOf u = i0 → l2IndexOf u = j0 →
      ∃ q, trw (writeWord32 (writeWord32 m (root + 4 * i0) (4096 * N + 3))
          (pageBaseOf (4096 * N + 3) + 4 * j0) (4096 * (N + 1) + 3)) root u =
        some (q, true)) := by
  have hroot4 : root % 4096 = 0 := hWF.rootAligned
  have hrootN : root / 4096 < N := hWF.rootLt
  have hpbt : pageBaseOf (4096 * N + 3) = 4096 * N := by
    unfold pageBaseOf
    omega
  have hpbt2 : pageBaseOf (4096 * (N + 1) + 3) = 4096 * (N + 1) := by
    unfold pageBaseOf
    omega
  rw [hpbt]
  have hm1hi : ∀ b, 4096 * N ≤ b →
      writeWord32 m (root + 4 * i0) (4096 * N + 3) b = 0 := by
    intro b hb
    rw [writeWord32_apply_hi m _ _ b (by omega)]
    exact hWF.hi b hb
  have hz : readWord32 (writeWord32 m (root + 4 * i0) (4096 * N + 3))
      (4096 * N + 4 * j0) = 0 :=
    readWord32_zero_region _ (4096 * N) _ hm1hi (by omega)
  have hm2hi : ∀ b, 4096 * (N + 2) ≤ b →
      writeWord32 (writeWord32 m (root + 4 * i0) (4096 * N + 3))
        (4096 * N + 4 * j0) (4096 * (N + 1) + 3) b = 0 := by
    intro b hb
    rw [writeWord32_apply_hi _ _ _ b (by omega)]
    exact hm1hi b (by omega)
  have hl1t : l1e (writeWord32 (writeWord32 m (root + 4 * i0) (4096 * N + 3))
      (4096 * N + 4 * j0) (4096 * (N + 1) + 3)) root i0 = 4096 * N + 3 := by
    show readWord32 _ (root + 4 * i0) = _
    rw [readWord32_entry_stable _ (4096 * N + 4 * j0) (4096 * (N + 1) + 3) root i0
      hroot4 hi0 (by omega) (by omega)]
    rw [readWord32_writeWord32_same]
    omega
  have hl1o : ∀ i, i < 1024 → i ≠ i0 →
      l1e (writeWord32 (writeWord32 m (root + 4 * i0) (4096 * N + 3))
        (4096 * N + 4 * j0) (4096 * (N + 1) + 3)) root i = l1e m root i := by
    intro i hi hne
    show readWord32 _ (root + 4 * i) = _
    rw [readWord32_entry_stable _ (4096 * N + 4 * j0) (4096 * (N + 1) + 3) root i
      hroot4 hi (by omega) (by omega)]
    exact readWord32_entry_stable_same_table m root i i0 (4096 * N + 3) hi hi0 hne
  have hl2bt : l2base (writeWord32 (writeWord32 m (root + 4 * i0) (4096 * N + 3))
      (4096 * N + 4 * j0) (4096 * (N + 1) + 3)) root i0 = 4096 * N := by
    unfold l2base
    rw [hl1t, hpbt]
  have hl2bo : ∀ i, i < 1024 → i ≠ i0 →
      l2base (writeWord32 (writeWord32 m (root + 4 * i0) (4096 * N + 3))
        (4096 * N + 4 * j0) (4096 * (N + 1) + 3)) root i = l2base m root i := by
    intro i hi hne
    unfold l2base
    rw [hl1o i hi hne]
  have hl2t : l2e (writeWord32 (writeWord32 m (root + 4 * i0) (4096 * N + 3))
      (4096 * N + 4 * j0) (4096 * (N + 1) + 3)) root i0 j0 = 4096 * (N + 1) + 3 := by
    unfold l2e
    rw [hl2bt]
    rw [readWord32_writeWord32_same]
    omega
  have hl2tz : ∀ j, j < 1024 → j ≠ j0 →
      l2e (writeWord32 (writeWord32 m (root + 4 * i0) (4096 * N + 3))
        (4096 * N + 4 * j0) (4096 * (N + 1) + 3)) root i0 j = 0 := by
    intro j hj hne
    unfold l2e
    rw [hl2bt]
    rw [readWord32_entry_stable_same_table _ (4096 * N) j j0 (4096 * (N + 1) + 3)
      hj hj0 hne]
    exact readWord32_zero_region _ (4096 * N) _ hm1hi (by omega)
  have hl2o : ∀ i, i < 1024 → i ≠ i0 → l1e m root i % 2 = 1 → ∀ j, j < 1024 →
      l2e (writeWord32 (writeWord32 m (root + 4 * i0) (4096 * N + 3))
        (4096 * N + 4 * j0) (4096 * (N + 1) + 3)) root i j = l2e m root i j := by
    intro i hi hne hpi j hj
    have hfr : l2base m root i / 4096 < N ∧ l2base m root i ≠ root :=
      hWF.l1frame i hi hpi
    have hal : l2base m root i % 4096 = 0 := pageBaseOf_aligned _
    unfold l2e
    rw [hl2bo i hi hne]
    rw [readWord32_entry_stable _ (4096 * N + 4 * j0) (4096 * (N + 1) + 3)
      (l2base m root i) j hal hj (by omega) (by omega)]
    rw [readWord32_entry_stable m (root + 4 * i0) (4096 * N + 3)
      (l2base m root i) j hal hj (by omega) (by omega)]
  refine ⟨hz, ?_, ?_, ?_⟩
  · refine ⟨hroot4, by omega, hm2hi, ?_, ?_, ?_⟩
    · intro i hi hpi
      rcases eq_or_ne i i0 with hii | hii
      · rw [hii, hl2bt]
        exact ⟨by omega, by omega⟩
      · rw [hl1o i hi hii] at hpi
        rw [hl2bo i hi hii]
        obtain ⟨c1, c2⟩ := hWF.l1frame i hi hpi
        exact ⟨by omega, c2⟩
    · intro i j hi hj hne hpi hpj
      rcases eq_or_ne i i0 with hii | hii
      · rcases eq_or_ne j i0 with hjj | hjj
        · exact absurd (hii.trans hjj.symm) hne
        · rw [hl1o j hj hjj] at hpj
          rw [hii, hl2bt, hl2bo j hj hjj]
          obtain ⟨d1, _⟩ := hWF.l1frame j hj hpj
          have d2 : l2base m root j % 4096 = 0 := pageBaseOf_aligned _
          omega
      · rcases eq_or_ne j i0 with hjj | hjj
        · rw [hl1o i hi hii] at hpi
          rw [hjj, hl2bt, hl2bo i hi hii]
          obtain ⟨d1, _⟩ := hWF.l1frame i hi hpi
          have d2 : l2base m root i % 4096 = 0 := pageBaseOf_aligned _
          omega
        · rw [hl1o i hi hii] at hpi
          rw [hl1o j hj hjj] at hpj
          rw [hl2bo i hi hii, hl2bo j hj hjj]
          exact hWF.l1inj i j hi hj hne hpi hpj
    · intro i hi hpi j hj hpj
      rcases eq_or_ne i i0 with hii | hii
      · rcases eq_or_ne j j0 with hjj | hjj
        · rw [hii, hjj]
          have hdf : dframe (writeWord32 (writeWord32 m (root + 4 * i0) (4096 * N + 3))
              (4096 * N + 4 * j0) (4096 * (N + 1) + 3)) root i0 j0 = 4096 * (N + 1) := by
            unfold dframe
            rw [hl2t, hpbt2]
          rw [hdf]
          refine ⟨by omega, by omega, ?_⟩
          intro i2 hi2 hpi2
          rcases eq_or_ne i2 i0 with hii2 | hii2
          · rw [hii2, hl2bt]
            omega
          · rw [hl1o i2 hi2 hii2] at hpi2
            rw [hl2bo i2 hi2 hii2]
            obtain ⟨d1, _⟩ := hWF.l1frame i2 hi2 hpi2
            have d2 : l2base m root i2 % 4096 = 0 := pageBaseOf_aligned _
            omega
        · rw [hii] at hpj
          rw [hl2tz j hj hjj] at hpj
          exact absurd hpj (by omega)
      · rw [hl1o i hi hii] at hpi
        rw [hl2o i hi hii hpi j hj] at hpj
        have hdf : dframe (writeWord32 (writeWord32 m (root + 4 * i0) (4096 * N + 3))
            (4096 * N + 4 * j0) (4096 * (N + 1) + 3)) root i j = dframe m root i j := by
          unfold dframe
          rw [hl2o i hi hii hpi j hj]
        rw [hdf]
        obtain ⟨c1, c2, c3⟩ := hWF.l2frame i hi hpi j hj hpj
        refine ⟨by omega, c2, ?_⟩
        intro i2 hi2 hpi2
        rcases eq_or_ne i2 i0 with hii2 | hii2
        · rw [hii2, hl2bt]
          have d2 : dframe m root i j % 4096 = 0 := pageBaseOf_aligned _
          omega
        · rw [hl1o i2 hi2 hii2] at hpi2
          rw [hl2bo i2 hi2 hii2]
          exact c3 i2 hi2 hpi2
  · intro u hu hne
    rw [trw_eq, trw_eq]
    rcases eq_or_ne (l1IndexOf u) i0 with hLu | hLu
    · have hJu : l2IndexOf u ≠ j0 := fun hc => hne ⟨hLu, hc⟩
      rw [hLu, hl1t]
      rw [if_neg (show ¬ ((4096 * N + 3) % 2 = 0) by omega)]
      rw [if_pos h1]
      rw [hl2tz (l2IndexOf u) (l2IndexOf_lt u) hJu]
      rw [if_pos (show (0 : Nat) % 2 = 0 from rfl)]
    · rw [hl1o (l1IndexOf u) (l1IndexOf_lt u hu) hLu]
      by_cases hp1 : l1e m root (l1IndexOf u) % 2 = 0
      · rw [if_pos hp1, if_pos hp1]
      · rw [if_neg hp1, if_neg hp1]
        have hp1' : l1e m root (l1IndexOf u) % 2 = 1 := by omega
        have he := hl2o (l1IndexOf u) (l1IndexOf_lt u hu) hLu hp1'
          (l2IndexOf u) (l2IndexOf_lt u)
        have hdfe : dframe (writeWord32 (writeWord32 m (root + 4 * i0) (4096 * N + 3))
            (4096 * N + 4 * j0) (4096 * (N + 1) + 3)) root (l1IndexOf u) (l2IndexOf u) =
            dframe m root (l1IndexOf u) (l2IndexOf u) := by
          unfold dframe
          rw [he]
        rw [he, hdfe]
  · intro u hu hiu hju
    rw [trw_eq, hiu, hju, hl1t]
    rw [if_neg (show ¬ ((4096 * N + 3) % 2 = 0) by omega)]
    rw [hl2t]
    rw [if_neg (show ¬ ((4096 * (N + 1) + 3) % 2 = 0) by omega)]
    have hb : (4096 * (N + 1) + 3) / 2 % 2 = 1 := by omega
    rw [hb]
    exact ⟨_, rfl⟩

/-- `AllocateAndMapPage` on an unmapped page over well-formed tables: it
succeeds, hands out one or two fresh frames, keeps the tables well-formed at
the allocator's new high-water mark, leaves the translation of every other
page untouched and makes the whole requested page writable-mapped. -/
theorem allocMap_spec (s : St) (N v : Nat)
    (hWF : WF s.mem s.vmem_pmcb.page_table_base N)
    (hN : s.nextFrame = N) (hv : v < 4294967296) (hNb : N + 2 ≤ 1048576)
    (htr : trw s.mem s.vmem_pmcb.page_table_base v = Option.none) :
    ∃ s2, allocateAndMapPage s v = some s2 ∧
      (s2.nextFrame = N + 1 ∨ s2.nextFrame = N + 2) ∧
      WF s2.mem s.vmem_pmcb.page_table_base s2.nextFrame ∧
      (∀ u, u < 4294967296 → u / 4096 ≠ v / 4096 →
        trw s2.mem s.vmem_pmcb.page_table_base u =
          trw s.mem s.vmem_pmcb.page_table_base u) ∧
      (∀ u, u < 4294967296 → u / 4096 = v / 4096 →
        ∃ q, trw s2.mem s.vmem_pmcb.page_table_base u = some (q, true)) := by
  subst hN
  have hi0 : l1IndexOf v < 1024 := l1IndexOf_lt v hv
  have hj0 : l2IndexOf v < 1024 := l2IndexOf_lt v
  by_cases h1 : readWord32 s.mem (s.vmem_pmcb.page_table_base + 4 * l1IndexOf v) % 2 = 0
  · have h1' : l1e s.mem s.vmem_pmcb.page_table_base (l1IndexOf v) % 2 = 0 := h1
    obtain ⟨hz, hWF2, hoff, hon⟩ := allocB_mem s.mem s.vmem_pmcb.page_table_base
      s.nextFrame (l1IndexOf v) (l2IndexOf v) hWF hi0 hj0 hNb h1'
    have h2 : ¬ readWord32
        (writeWord32 s.mem (s.vmem_pmcb.page_table_base + 4 * l1IndexOf v)
          (4096 * s.nextFrame + 3))
        (pageBaseOf (4096 * s.nextFrame + 3) + 4 * l2IndexOf v) % 2 = 1 := by
      rw [hz]
      omega
    have heq := allocMap_eq_caseB s v h1 h2
    refine ⟨_, heq, Or.inr rfl, hWF2, ?_, ?_⟩
    · intro u hu hne
      exact hoff u hu (fun hc => hne (page_eq_of_indices u v hc.1 hc.2))
    · intro u hu hpe
      obtain ⟨hia, hib⟩ := indices_eq_of_page u v hpe
      exact hon u hu hia hib
  · have h1' : l1e s.mem s.vmem_pmcb.page_table_base (l1IndexOf v) % 2 = 1 := by
      have hb : l1e s.mem s.vmem_pmcb.page_table_base (l1IndexOf v) =
          readWord32 s.mem (s.vmem_pmcb.page_table_base + 4 * l1IndexOf v) := rfl
      omega
    have h2' : l2e s.mem s.vmem_pmcb.page_table_base (l1IndexOf v) (l2IndexOf v) % 2 = 0 := by
      rcases trw_none_elim s.mem s.vmem_pmcb.page_table_base v htr with hc | hc
      · exact absurd hc (by omega)
      · exact hc.2
    obtain ⟨hWF2, hoff, hon⟩ := allocA_mem s.mem s.vmem_pmcb.page_table_base
      s.nextFrame (l1IndexOf v) (l2IndexOf v) hWF hi0 hj0 hNb h1' h2'
    have h2 : ¬ readWord32 s.mem
        (pageBaseOf (readWord32 s.mem (s.vmem_pmcb.page_table_base + 4 * l1IndexOf v)) +
          4 * l2IndexOf v) % 2 = 1 := by
      have hb : readWord32 s.mem
          (pageBaseOf (readWord32 s.mem (s.vmem_pmcb.page_table_base + 4 * l1IndexOf v)) +
            4 * l2IndexOf v) =
          l2e s.mem s.vmem_pmcb.page_table_base (l1IndexOf v) (l2IndexOf v) := rfl
      omega
    have heq := allocMap_eq_caseA s v h1 h2
    refine ⟨_, heq, Or.inl rfl, hWF2, ?_, ?_⟩
    · intro u hu hne
      exact hoff u hu (fun hc => hne (page_eq_of_indices u v hc.1 hc.2))
    · intro u hu hpe
      obtain ⟨hia, hib⟩ := indices_eq_of_page u v hpe
      exact hon u hu hia hib

/-- Strict progress of fault recovery: if a scan of `[a, a+n)` first faults
unmapped at index `i`, and the memory then changes so that the whole page of
`a + i` is writable-mapped while every other page translates as before, then a
new scan of the same range can only fault strictly beyond `i`, in a strictly
later page. -/
theorem firstNW_progress (m m2 : Mem) (root a n i : Nat)
    (hold : firstNW m root a n = some (i, false))
    (hbound : a + n ≤ 4294967296)
    (hpres : ∀ u, u < 4294967296 → u / 4096 ≠ (a + i) / 4096 →
      trw m2 root u = trw m root u)
    (hnew : ∀ u, u < 4294967296 → u / 4096 = (a + i) / 4096 →
      ∃ q, trw m2 root u = some (q, true)) :
    ∀ i2 fl2, firstNW m2 root a n = some (i2, fl2) →
      i < i2 ∧ (a + i) / 4096 < (a + i2) / 4096 := by
  intro i2 fl2 hnew2
  obtain ⟨hi2n, hpre2, hf2, ht2⟩ := firstNW_some_elim m2 root n a i2 fl2 hnew2
  obtain ⟨hin, hpre1, hf1, _⟩ := firstNW_some_elim m root n a i false hold
  have hne : (a + i2) / 4096 ≠ (a + i) / 4096 := by
    intro hc
    obtain ⟨q, hq⟩ := hnew (a + i2) (by omega) hc
    cases fl2 with
    | false =>
      rw [hf2 rfl] at hq
      cases hq
    | true =>
      obtain ⟨p, hp⟩ := ht2 rfl
      rw [hp] at hq
      obtain ⟨_, hw⟩ := Prod.mk.inj (Option.some.inj hq)
      cases hw
  have hlt : i < i2 := by
    by_contra hc
    push_neg at hc
    have hi2lt : i2 < i := by
      rcases Nat.lt_or_ge i2 i with h | h
      · exact h
      · have : i2 = i := by omega
        exact absurd (by rw [this]) hne
    obtain ⟨q, hq⟩ := hpre1 i2 hi2lt
    have hpr : trw m2 root (a + i2) = trw m root (a + i2) := hpres (a + i2) (by omega) hne
    cases fl2 with
    | false =>
      rw [hf2 rfl, hq] at hpr
      cases hpr
    | true =>
      obtain ⟨p, hp⟩ := ht2 rfl
      rw [hp, hq] at hpr
      obtain ⟨_, hw⟩ := Prod.mk.inj (Option.some.inj hpr)
      cases hw
  exact ⟨hlt, by omega⟩

/-- Fuel sufficiency for the put/copy retry loop: starting from well-formed
tables with enough frames left, fuel `F + 1` suffices whenever `F` covers the
pages from the first faulting page to the last page of the request — each
iteration that neither completes nor fails maps the faulting page, pushing the
next fault into a strictly later page. -/
theorem putLoop_fuel :
    ∀ (F : Nat) (addr : Nat) (bs : List Nat) (s : St) (ev : List Event),
    WF s.mem s.vmem_pmcb.page_table_base s.nextFrame →
    s.vmem_pmcb.vm_enabled = true →
    addr + bs.length ≤ 4294967296 →
    1 ≤ F →
    (∀ i, firstNW s.mem s.vmem_pmcb.page_table_base addr bs.length = some (i, false) →
      (addr + bs.length - 1) / 4096 - (addr + i) / 4096 + 2 ≤ F ∧
      s.nextFrame + 2 * ((addr + bs.length - 1) / 4096 - (addr + i) / 4096 + 1) ≤ 1048576) →
    putLoop addr bs F s ev ≠ Option.none := by
  intro F
  induction F with
  | zero =>
    intro addr bs s ev hWF hvm hbound hF hneed
    exact absurd hF (by omega)
  | succ f ih =>
    intro addr bs s ev hWF hvm hbound hF hneed
    simp only [putLoop]
    split
    · exact fun hc => Option.noConfusion hc
    · rename_i m2 pm2 heq
      have heq2 : putBytes s.mem { s.vmem_pmcb with operation_state := OpState.none }
          addr bs = MemOp.pageFault m2 pm2 := heq
      obtain ⟨sp1, sp2, sp3⟩ := putBytes_spec s.vmem_pmcb.page_table_base s.nextFrame
        bs s.mem addr { s.vmem_pmcb with operation_state := OpState.none } hWF hvm rfl hbound
      rcases hfa : firstNW s.mem s.vmem_pmcb.page_table_base addr bs.length with _ | ⟨i, fl⟩
      · obtain ⟨m3, hok, _, _⟩ := sp1 hfa
        rw [hok] at heq2
        cases heq2
      · cases fl with
        | true =>
          obtain ⟨m3, hpf, _, _⟩ := sp3 i hfa
          rw [hpf] at heq2
          cases heq2
        | false =>
          obtain ⟨m3, hpf, hWF3, hpres3⟩ := sp2 i hfa
          rw [hpf] at heq2
          obtain ⟨hm23, hpm2⟩ := MemOp.pageFault.inj heq2
          subst hm23
          have hnv : pm2.next_vaddress = addr + i := by rw [← hpm2]
          have hptb : pm2.page_table_base = s.vmem_pmcb.page_table_base := by
            rw [← hpm2]
          have hpmvm : pm2.vm_enabled = true := by
            rw [← hpm2]
            exact hvm
          have helim := firstNW_some_elim s.mem s.vmem_pmcb.page_table_base
            bs.length addr i false hfa
          have hilen : i < bs.length := helim.1
          have htrn : trw s.mem s.vmem_pmcb.page_table_base (addr + i) = Option.none :=
            helim.2.2.1 rfl
          split
          · exact fun hc => Option.noConfusion hc
          · split
            · exact fun hc => Option.noConfusion hc
            · split
              · exact fun hc => Option.noConfusion hc
              · rename_i s4 halloc
                have halloc2 : allocateAndMapPage
                    { s with mem := m3, vmem_pmcb := pm2, mmu_pmcb := s.pmem_pmcb }
                    (pageBaseOf pm2.next_vaddress) = some s4 := halloc
                have hWFR : WF m3 pm2.page_table_base s.nextFrame := by
                  rw [hptb]
                  exact hWF3
                have hv32 : pageBaseOf pm2.next_vaddress < 4294967296 := by
                  rw [hnv]
                  unfold pageBaseOf
                  omega
                have hNb2 : s.nextFrame + 2 ≤ 1048576 := by
                  have := (hneed i hfa).2
                  omega
                have hpg : (addr + i) / 4096 = pageBaseOf pm2.next_vaddress / 4096 := by
                  rw [hnv, pageBaseOf_div]
                have htrv : trw s.mem s.vmem_pmcb.page_table_base
                    (pageBaseOf pm2.next_vaddress) = Option.none :=
                  (trw_page_cases s.mem s.vmem_pmcb.page_table_base (addr + i)
                    (pageBaseOf pm2.next_vaddress) hpg).1 htrn
                have htrR : trw m3 pm2.page_table_base
                    (pageBaseOf pm2.next_vaddress) = Option.none := by
                  rw [hptb, hpres3 _ hv32]
                  exact htrv
                obtain ⟨s4', heqA, hnf4, hWF4, hoff4, hon4⟩ := allocMap_spec
                  { s with mem := m3, vmem_pmcb := pm2, mmu_pmcb := s.pmem_pmcb }
                  s.nextFrame (pageBaseOf pm2.next_vaddress) hWFR rfl hv32 hNb2 htrR
                rw [heqA] at halloc2
                have hs4 : s4' = s4 := Option.some.inj halloc2
                rw [hs4] at hnf4 hWF4 hoff4 hon4
                have hWF4' : WF s4.mem pm2.page_table_base s4.nextFrame := hWF4
                have hoff4' : ∀ u, u < 4294967296 →
                    u / 4096 ≠ pageBaseOf pm2.next_vaddress / 4096 →
                    trw s4.mem pm2.page_table_base u = trw m3 pm2.page_table_base u := hoff4
                have hon4' : ∀ u, u < 4294967296 →
                    u / 4096 = pageBaseOf pm2.next_vaddress / 4096 →
                    ∃ q, trw s4.mem pm2.page_table_base u = some (q, true) := hon4
                have hpresP : ∀ u, u < 4294967296 → u / 4096 ≠ (addr + i) / 4096 →
                    trw s4.mem s.vmem_pmcb.page_table_base u =
                      trw s.mem s.vmem_pmcb.page_table_base u := by
                  intro u hu hneu
                  have e1 := hoff4' u hu (by rw [← hpg]; exact hneu)
                  rw [hptb] at e1
                  exact e1.trans (hpres3 u hu)
                have hnewP : ∀ u, u < 4294967296 → u / 4096 = (addr + i) / 4096 →
                    ∃ q, trw s4.mem s.vmem_pmcb.page_table_base u = some (q, true) := by
                  intro u hu hpe
                  have e1 := hon4' u hu (by rw [← hpg]; exact hpe)
                  rw [hptb] at e1
                  exact e1
                have hprog := firstNW_progress s.mem s4.mem
                  s.vmem_pmcb.page_table_base addr bs.length i hfa hbound hpresP hnewP
                have hvm4 : s4.vmem_pmcb = pm2 :=
                  (allocMap_fields _ _ _ halloc).2.1
                have hneed1 := (hneed i hfa).1
                have hneed2 := (hneed i hfa).2
                refine ih addr bs _ _ ?_ ?_ hbound (by omega) ?_
                · show WF s4.mem s4.vmem_pmcb.page_table_base s4.nextFrame
                  rw [hvm4]
                  exact hWF4'
                · show s4.vmem_pmcb.vm_enabled = true
                  rw [hvm4]
                  exact hpmvm
                · intro i2 hf2
                  have hf2a : firstNW s4.mem s4.vmem_pmcb.page_table_base addr
                      bs.length = some (i2, false) := hf2
                  rw [hvm4, hptb] at hf2a
                  obtain ⟨hlt, hpglt⟩ := hprog i2 false hf2a
                  have helim2 := firstNW_some_elim s4.mem s.vmem_pmcb.page_table_base
                    bs.length addr i2 false hf2a
                  have hi2len : i2 < bs.length := helim2.1
                  have hnfle : s4.nextFrame ≤ s.nextFrame + 2 := by
                    rcases hnf4 with h | h <;> omega
                  constructor
                  · omega
                  · show s4.nextFrame + 2 * ((addr + bs.length - 1) / 4096 -
                      (addr + i2) / 4096 + 1) ≤ 1048576
                    omega
    · exact fun hc => Option.noConfusion hc

/-- Fuel sufficiency for the fill retry loop, as for `putLoop_fuel`: over
well-formed tables with enough frames left, fuel covering the pages from the
first faulting page to the end of the request suffices.  `addr`/`bw` carry the
loop's resume invariant: the cursor sits `bw` written bytes past `start`. -/
theorem fillLoop_fuel :
    ∀ (F : Nat) (start num val addr bw : Nat) (s : St) (ev : List Event),
    WF s.mem s.vmem_pmcb.page_table_base s.nextFrame →
    s.vmem_pmcb.vm_enabled = true →
    addr = start + bw → bw ≤ num →
    start + num ≤ 4294967296 →
    1 ≤ F →
    (∀ i, firstNW s.mem s.vmem_pmcb.page_table_base addr (num - bw) = some (i, false) →
      (start + num - 1) / 4096 - (addr + i) / 4096 + 2 ≤ F ∧
      s.nextFrame + 2 * ((start + num - 1) / 4096 - (addr + i) / 4096 + 1) ≤ 1048576) →
    fillLoop start num val F addr bw s ev ≠ Option.none := by
  intro F
  induction F with
  | zero =>
    intro start num val addr bw s ev hWF hvm hinv1 hinv2 hbound hF hneed
    exact absurd hF (by omega)
  | succ f ih =>
    intro start num val addr bw s ev hWF hvm hinv1 hinv2 hbound hF hneed
    have hbound2 : addr + (num - bw) ≤ 4294967296 := by omega
    simp only [fillLoop]
    split
    · exact fun hc => Option.noConfusion hc
    · rename_i m2 pm2 heq
      have heq2 : fillInner s.mem { s.vmem_pmcb with operation_state := OpState.none }
          addr val (num - bw) = MemOp.pageFault m2 pm2 := heq
      obtain ⟨sp1, sp2, sp3⟩ := fillInner_spec s.vmem_pmcb.page_table_base s.nextFrame
        (num - bw) s.mem addr val { s.vmem_pmcb with operation_state := OpState.none }
        hWF hvm rfl hbound2
      rcases hfa : firstNW s.mem s.vmem_pmcb.page_table_base addr (num - bw)
        with _ | ⟨i, fl⟩
      · obtain ⟨m3, pm3, hok, _, _⟩ := sp1 hfa
        rw [hok] at heq2
        cases heq2
      · cases fl with
        | true =>
          obtain ⟨m3, hpf, _, _⟩ := sp3 i hfa
          rw [hpf] at heq2
          cases heq2
        | false =>
          obtain ⟨m3, hpf, hWF3, hpres3⟩ := sp2 i hfa
          rw [hpf] at heq2
          obtain ⟨hm23, hpm2⟩ := MemOp.pageFault.inj heq2
          subst hm23
          have hnv : pm2.next_vaddress = addr + i := by rw [← hpm2]
          have hptb : pm2.page_table_base = s.vmem_pmcb.page_table_base := by
            rw [← hpm2]
          have hpmvm : pm2.vm_enabled = true := by
            rw [← hpm2]
            exact hvm
          have helim := firstNW_some_elim s.mem s.vmem_pmcb.page_table_base
            (num - bw) addr i false hfa
          have hilen : i < num - bw := helim.1
          have htrn : trw s.mem s.vmem_pmcb.page_table_base (addr + i) = Option.none :=
            helim.2.2.1 rfl
          split
          · exact fun hc => Option.noConfusion hc
          · split
            · exact fun hc => Option.noConfusion hc
            · split
              · exact fun hc => Option.noConfusion hc
              · rename_i s4 halloc
                have halloc2 : allocateAndMapPage
                    { s with mem := m3, vmem_pmcb := pm2, mmu_pmcb := s.pmem_pmcb }
                    (pageBaseOf pm2.next_vaddress) = some s4 := halloc
                have hWFR : WF m3 pm2.page_table_base s.nextFrame := by
                  rw [hptb]
                  exact hWF3
                have hv32 : pageBaseOf pm2.next_vaddress < 4294967296 := by
                  rw [hnv]
                  unfold pageBaseOf
                  omega
                have hNb2 : s.nextFrame + 2 ≤ 1048576 := by
                  have := (hneed i hfa).2
                  omega
                have hpg : (addr + i) / 4096 = pageBaseOf pm2.next_vaddress / 4096 := by
                  rw [hnv, pageBaseOf_div]
                have htrv : trw s.mem s.vmem_pmcb.page_table_base
                    (pageBaseOf pm2.next_vaddress) = Option.none :=
                  (trw_page_cases s.mem s.vmem_pmcb.page_table_base (addr + i)
                    (pageBaseOf pm2.next_vaddress) hpg).1 htrn
                have htrR : trw m3 pm2.page_table_base
                    (pageBaseOf pm2.next_vaddress) = Option.none := by
                  rw [hptb, hpres3 _ hv32]
                  exact htrv
                obtain ⟨s4', heqA, hnf4, hWF4, hoff4, hon4⟩ := allocMap_spec
                  { s with mem := m3, vmem_pmcb := pm2, mmu_pmcb := s.pmem_pmcb }
                  s.nextFrame (pageBaseOf pm2.next_vaddress) hWFR rfl hv32 hNb2 htrR
                rw [heqA] at halloc2
                have hs4 : s4' = s4 := Option.some.inj halloc2
                rw [hs4] at hnf4 hWF4 hoff4 hon4
                have hWF4' : WF s4.mem pm2.page_table_base s4.nextFrame := hWF4
                have hon4' : ∀ u, u < 4294967296 →
                    u / 4096 = pageBaseOf pm2.next_vaddress / 4096 →
                    ∃ q, trw s4.mem pm2.page_table_base u = some (q, true) := hon4
                have hvm4 : s4.vmem_pmcb = pm2 :=
                  (allocMap_fields _ _ _ halloc).2.1
                have hneed1 := (hneed i hfa).1
                have hneed2 := (hneed i hfa).2
                refine ih start num val pm2.next_vaddress (pm2.next_vaddress - start)
                  _ _ ?_ ?_ (by omega) (by omega) hbound (by omega) ?_
                · show WF s4.mem s4.vmem_pmcb.page_table_base s4.nextFrame
                  rw [hvm4]
                  exact hWF4'
                · show s4.vmem_pmcb.vm_enabled = true
                  rw [hvm4]
                  exact hpmvm
                · intro i2 hf2
                  have hf2a : firstNW s4.mem s4.vmem_pmcb.page_table_base
                      pm2.next_vaddress (num - (pm2.next_vaddress - start)) =
                      some (i2, false) := hf2
                  rw [hvm4, hptb] at hf2a
                  have helim2 := firstNW_some_elim s4.mem s.vmem_pmcb.page_table_base
                    (num - (pm2.next_vaddress - start)) pm2.next_vaddress i2 false hf2a
                  have hi2len : i2 < num - (pm2.next_vaddress - start) := helim2.1
                  have htrn2 : trw s4.mem s.vmem_pmcb.page_table_base
                      (pm2.next_vaddress + i2) = Option.none := helim2.2.2.1 rfl
                  have hneA : (pm2.next_vaddress + i2) / 4096 ≠
                      pm2.next_vaddress / 4096 := by
                    intro hc
                    obtain ⟨q, hq⟩ := hon4' (pm2.next_vaddress + i2) (by omega)
                      (by rw [← hpg]; omega)
                    rw [hptb] at hq
                    rw [htrn2] at hq
                    cases hq
                  have hpgmono : pm2.next_vaddress / 4096 ≤
                      (pm2.next_vaddress + i2) / 4096 := by omega
                  have hnfle : s4.nextFrame ≤ s.nextFrame + 2 := by
                    rcases hnf4 with h | h <;> omega
                  constructor
                  · omega
                  · show s4.nextFrame + 2 * ((start + num - 1) / 4096 -
                      (pm2.next_vaddress + i2) / 4096 + 1) ≤ 1048576
                    omega
    · exact fun hc => Option.noConfusion hc

/-- C9: the fault-recovery retry loops of put/copy (`putLoop`, shared by
`CmdPut` and `CmdCopy`) and of fill (`fillLoop`) terminate, iterating at most
once per page touched by the request: over well-formed page tables, with the
process context in virtual mode, the request within the 32-bit address space
and enough physical frames for the pages it spans, fuel equal to the number of
pages touched plus one is never exhausted — each iteration that neither
completes nor fails maps the previously unmapped faulting page, which is
strict progress into a later page (`firstNW_progress`).  A zero-length request
completes trivially on the first iteration with no allocation and no fault:
memory, allocator, page counter and quota are unchanged, and the only event is
the single empty write attempt. -/
theorem c9_retry_loop_once_per_page :
    (∀ (s : St) (addr : Nat) (bs : List Nat) (ev : List Event),
      WF s.mem s.vmem_pmcb.page_table_base s.nextFrame →
      s.vmem_pmcb.vm_enabled = true →
      addr + bs.length ≤ 4294967296 →
      s.nextFrame + 2 * ((addr + bs.length - 1) / 4096 - addr / 4096 + 1) ≤ 1048576 →
      putLoop addr bs ((addr + bs.length - 1) / 4096 - addr / 4096 + 2) s ev ≠
        Option.none) ∧
    (∀ (s : St) (start num val : Nat) (ev : List Event),
      WF s.mem s.vmem_pmcb.page_table_base s.nextFrame →
      s.vmem_pmcb.vm_enabled = true →
      start + num ≤ 4294967296 →
      s.nextFrame + 2 * ((start + num - 1) / 4096 - start / 4096 + 1) ≤ 1048576 →
      fillLoop start num val ((start + num - 1) / 4096 - start / 4096 + 2) start 0 s ev ≠
        Option.none) ∧
    (∀ (s : St) (addr : Nat) (ev : List Event),
      putLoop addr [] 1 s ev = some (Out.ok
        { s with
          vmem_pmcb := { s.vmem_pmcb with operation_state := OpState.none },
          mmu_pmcb := { s.vmem_pmcb with operation_state := OpState.none } }
        (ev ++ [Event.attempt addr 0]))) ∧
    (∀ (s : St) (start val : Nat) (ev : List Event),
      fillLoop start 0 val 1 start 0 s ev = some (Out.ok
        { s with
          vmem_pmcb := { s.vmem_pmcb with operation_state := OpState.none },
          mmu_pmcb := { s.vmem_pmcb with operation_state := OpState.none } }
        (ev ++ [Event.attempt start 0]))) := by
  refine ⟨?_, ?_, ?_, ?_⟩
  · intro s addr bs ev hWF hvm hbound hbudget
    apply putLoop_fuel _ addr bs s ev hWF hvm hbound (by omega)
    intro i hfa
    have hmono : addr / 4096 ≤ (addr + i) / 4096 := by omega
    exact ⟨by omega, by omega⟩
  · intro s start num val ev hWF hvm hbound hbudget
    apply fillLoop_fuel _ start num val start 0 s ev hWF hvm (by omega) (by omega)
      hbound (by omega)
    intro i hfa
    have hmono : start / 4096 ≤ (start + i) / 4096 := by omega
    exact ⟨by omega, by omega⟩
  · intro s addr ev
    rfl
  · intro s start val ev
    rfl

end PT

